import Mathlib

set_option maxRecDepth 4000

namespace WingmanIndex

/-! Data model of the indexing core, translated from the Indexer source
(`Indexer`, `skeletonizeCodeNodes`, `skeletonizeNode`, `embedCodeGraph`,
`shouldIncludeFile`, `clearCache`, `processDocuments`).  External
collaborators (file system, parser, generator, vector store, glob) are
modelled as an explicit environment; the pass is a deterministic state
machine that also records a trace of collaborator calls. -/

structure Range where
  startLine : Nat
  startChar : Nat
  endLine : Nat
  endChar : Nat
deriving DecidableEq

structure Location where
  uri : String
  range : Range
deriving DecidableEq

structure CodeGraphNode where
  id : String
  location : Location
  parentNodeId : Option String
deriving DecidableEq

structure SkeletonizedCodeGraphNode where
  id : String
  location : Location
  parentNodeId : Option String
  skeleton : String
deriving DecidableEq

structure FileEntry where
  nodeIds : List String
  sha : String
deriving DecidableEq

structure ParseResult where
  nodes : List CodeGraphNode
  importEdges : List (String × List String)
  exportEdges : List (String × List String)
deriving DecidableEq

/-- Association-list lookup (JavaScript Map.get). -/
def lookupA {β : Type} : List (String × β) → String → Option β
  | [], _ => none
  | (k, v) :: rest, a => if k = a then some v else lookupA rest a

/-- Association-list update keeping the original key position
(JavaScript Map.set). -/
def setA {β : Type} : List (String × β) → String → β → List (String × β)
  | [], a, b => [(a, b)]
  | (k, v) :: rest, a, b => if k = a then (a, b) :: rest else (k, v) :: setA rest a b

/-- Set-like insertion preserving insertion order (JavaScript Set.add). -/
def addSet (l : List String) (x : String) : List String :=
  if l.contains x then l else l ++ [x]

/-- Modelled from the spec: the Code Graph aggregate of `graph.ts`, which is
not part of the provided sources.  Per the data model it owns the per-file
symbol table (node ids plus content digest), a node arena, and the two edge
maps keyed by node id. -/
structure CodeGraph where
  symbolTable : List (String × FileEntry)
  nodes : List (String × CodeGraphNode)
  importEdges : List (String × List String)
  exportEdges : List (String × List String)
deriving DecidableEq

/-- Modelled from the spec: `getFileEntry` lookup of the Code Graph. -/
def CodeGraph.getFileFromSymbolTable (g : CodeGraph) (rel : String) : Option FileEntry :=
  lookupA g.symbolTable rel

/-- Modelled from the spec: import-edge lookup keyed by node id. -/
def CodeGraph.getImportEdge (g : CodeGraph) (id : String) : Option (List String) :=
  lookupA g.importEdges id

/-- Modelled from the spec: node lookup keyed by node id. -/
def CodeGraph.getNode (g : CodeGraph) (id : String) : Option CodeGraphNode :=
  lookupA g.nodes id

def removeEdgeKeys (edges : List (String × List String)) (ids : List String) :
    List (String × List String) :=
  edges.filter (fun kv => !ids.contains kv.1)

def setEdges (edges newEdges : List (String × List String)) :
    List (String × List String) :=
  newEdges.foldl (fun acc kv => setA acc kv.1 kv.2) edges

/-- Modelled from the spec: `updateFileWithEdges` replaces the file's
entry and replaces (not merges) the edges keyed by the node ids of the
file's previous entry with the edges passed in. -/
def CodeGraph.updateFileWithEdges (g : CodeGraph) (rel : String) (entry : FileEntry)
    (imps exps : List (String × List String)) : CodeGraph :=
  let prevIds := ((lookupA g.symbolTable rel).map FileEntry.nodeIds).getD []
  { g with
    symbolTable := setA g.symbolTable rel entry
    importEdges := setEdges (removeEdgeKeys g.importEdges prevIds) imps
    exportEdges := setEdges (removeEdgeKeys g.exportEdges prevIds) exps }

/-- Modelled from the spec: `removeFile` drops the file's symbol-table entry
and all edges keyed by any of its former node ids. -/
def CodeGraph.removeFileFromSymbolTable (g : CodeGraph) (rel : String) : CodeGraph :=
  let prevIds := ((lookupA g.symbolTable rel).map FileEntry.nodeIds).getD []
  { g with
    symbolTable := g.symbolTable.filter (fun kv => !(kv.1 == rel))
    importEdges := removeEdgeKeys g.importEdges prevIds
    exportEdges := removeEdgeKeys g.exportEdges prevIds }

/-- Events recording the collaborator calls and await points the pass
performs, in program order. -/
inductive Ev where
  | readDoc (uri : String)
  | fileProcessing (rel : String)
  | fileRemovedCall (path : String)
  | fileRemovedSettled (path : String)
  | parseCall (uri : String)
  | genCall (nodeId : String) (codeBlock : String)
  | findDocsCall (paths : List String)
  | deleteDocsCall (ids : List String)
  | saveCall
deriving DecidableEq

structure Doc where
  id : String
  pageContent : String
  filePath : String
  startRange : String
  endRange : String
  relatedNodes : List String
  parentNodeId : Option String
deriving DecidableEq

structure IndexerResult where
  codeDocs : List Doc
  relativeImports : List (String × List String)
  relativeExports : List (String × List String)
deriving DecidableEq

structure SaveArgs where
  codeDocs : List Doc
  relativeImports : List (String × List String)
  relativeExports : List (String × List String)
  symbolTable : List (String × FileEntry)
  incremental : Bool
deriving DecidableEq

/-- Indexer instance state: constructor fields that are mutable or that the
claims observe, plus the externally persisted store modelled as the list of
successful commits and deletions. -/
structure IndexerSt where
  workspace : String
  inclusionFilter : String
  syncing : Bool
  matchedFilesCache : Option (List String)
  graph : CodeGraph
  storeSaves : List SaveArgs
  storeDeleted : List (List String)
deriving DecidableEq

def isSyncing (st : IndexerSt) : Bool := st.syncing

/-- The external collaborators, fixed for the duration of a pass: the file
system (`docs`, uri to content, none when the file is missing), path glue
(`relPath` models path.relative over fileURLToPath), the digest, the code
parser, the glob matcher, text slicing, summary merging, the generator, the
vector store query surface and whether its save succeeds. -/
structure Env where
  docs : String → Option String
  relPath : String → String
  sha256 : String → String
  createNodesFromDocument : String → String → Option ParseResult
  globMatch : String → List String
  getRange : String → Range → String
  mergeCodeNodeSummariesIntoParent :
    Location → String → List String → List SkeletonizedCodeGraphNode → String
  skeletonizeCodeGraphNode : String → CodeGraphNode → String → List CodeGraphNode → String
  docsByPath : String → List String
  saveOk : Bool
  idToFilePath : String → String

/-- The free helper `getFileFromSymbolTable` of the Indexer module: reads the
document, digests its text and looks the file up in the symbol table.  When
the document cannot be read, the non-null assertion on the text document
throws, modelled by `none`. -/
def getFileFromSymbolTable (env : Env) (g : CodeGraph) (currentDocument : String) :
    List Ev × Option (Option FileEntry × String × String) :=
  match env.docs currentDocument with
  | none => ([Ev.readDoc currentDocument], none)
  | some text =>
    ([Ev.readDoc currentDocument],
     some (g.getFileFromSymbolTable (env.relPath currentDocument),
           env.relPath currentDocument, env.sha256 text))

/-- The staleness short-circuit of `processDocuments`: skip when a file entry
exists and either its stored digest or the digest recorded for that file
earlier in this pass matches. -/
def fileAlreadyIndexed (file : Option FileEntry) (rel sha : String)
    (fileHashMap : List (String × String)) : Bool :=
  match file with
  | none => false
  | some f => f.sha == sha || lookupA fileHashMap rel == some sha

/-- The inclusion-filter check `shouldIncludeFile`: populate the matched-file
cache from the glob once the cache is null, then test membership. -/
def shouldIncludeFile (env : Env) (st : IndexerSt) (relativeFilePath : String) :
    IndexerSt × Bool :=
  match st.matchedFilesCache with
  | none =>
    let matchedFiles := env.globMatch st.inclusionFilter
    ({ st with matchedFilesCache := some matchedFiles },
     matchedFiles.contains relativeFilePath)
  | some m => (st, m.contains relativeFilePath)

/-- The `clearCache` method: Set.clear empties the cached set in place; a
null cache stays null. -/
def clearCache (st : IndexerSt) : IndexerSt :=
  match st.matchedFilesCache with
  | none => st
  | some _ => { st with matchedFilesCache := some [] }

def setInclusionFilter (st : IndexerSt) (filter : String) : IndexerSt :=
  { st with inclusionFilter := filter }

/-- The Indexer state after shouldIncludeFile has populated the matched-file
cache from the glob of the current filter. -/
def flipCache (env : Env) (st : IndexerSt) : IndexerSt :=
  { st with matchedFilesCache := some (env.globMatch st.inclusionFilter) }

/-! Skeletonizer. -/

/-- JavaScript truthiness of the optional parent id. -/
def truthy : Option String → Bool
  | none => false
  | some s => !s.isEmpty

/-- Children of a node id according to the parent-id map built by
`skeletonizeCodeNodes`. -/
def childrenOf (nodes : List CodeGraphNode) (pid : String) : List CodeGraphNode :=
  nodes.filter (fun n => truthy n.parentNodeId && (n.parentNodeId == some pid))

/-- Accumulator threaded through skeletonization: the per-call text-document
cache, the shared result collection, and the call trace. -/
structure SkelAcc where
  cache : List (String × String)
  skels : List SkeletonizedCodeGraphNode
  tr : List Ev
deriving DecidableEq

/-- The `skeletonizeNode` method: fetch the node's document (cached per
call), slice its range, merge already-produced child skeletons into the
parent text when children exist, resolve import edges to related nodes, and
invoke the generator. -/
def skeletonizeNode (env : Env) (g : CodeGraph) (node : CodeGraphNode)
    (childNodes : List CodeGraphNode) (acc : SkelAcc) :
    SkelAcc × Option SkeletonizedCodeGraphNode :=
  let relatedNodeEdges := (g.getImportEdge node.id).getD []
  let fetched : SkelAcc × Option String :=
    match lookupA acc.cache node.location.uri with
    | some text => (acc, some text)
    | none =>
      match env.docs node.location.uri with
      | some text =>
        ({ acc with cache := setA acc.cache node.location.uri text,
                    tr := acc.tr ++ [Ev.readDoc node.location.uri] }, some text)
      | none => ({ acc with tr := acc.tr ++ [Ev.readDoc node.location.uri] }, none)
  match fetched with
  | (acc1, none) => (acc1, none)
  | (acc1, some text) =>
    let raw := env.getRange text node.location.range
    let codeBlock :=
      if childNodes.isEmpty then raw
      else env.mergeCodeNodeSummariesIntoParent node.location raw
             (childNodes.map (fun n => n.id)) acc1.skels
    let relatedNodes := relatedNodeEdges.filterMap (fun e => g.getNode e)
    let skeleton := env.skeletonizeCodeGraphNode node.location.uri node codeBlock relatedNodes
    ({ acc1 with tr := acc1.tr ++ [Ev.genCall node.id codeBlock] },
     some { id := node.id, location := node.location,
            parentNodeId := node.parentNodeId, skeleton := skeleton })

/-- The code block `skeletonizeNode` hands to the generator: the node's raw
range text, with child summaries merged in when the node has children. -/
def nodeCodeBlock (env : Env) (node : CodeGraphNode) (cs : List CodeGraphNode)
    (skels : List SkeletonizedCodeGraphNode) (t : String) : String :=
  if cs.isEmpty then env.getRange t node.location.range
  else env.mergeCodeNodeSummariesIntoParent node.location
    (env.getRange t node.location.range) (cs.map (fun n => n.id)) skels

/-- The skeleton node `skeletonizeNode` returns on success. -/
def mkSkeleton (env : Env) (g : CodeGraph) (node : CodeGraphNode) (cb : String) :
    SkeletonizedCodeGraphNode :=
  { id := node.id, location := node.location, parentNodeId := node.parentNodeId,
    skeleton := env.skeletonizeCodeGraphNode node.location.uri node cb
      (((g.getImportEdge node.id).getD []).filterMap (fun e => g.getNode e)) }

/-- The recursive `processNode` closure: process all children first, then
skeletonize the node against the accumulated result collection.  The
Promise.all over sibling subtrees is modelled sequentially; the fuel bounds
recursion depth. -/
def processNode (env : Env) (g : CodeGraph) (nodes : List CodeGraphNode) :
    Nat → CodeGraphNode → SkelAcc → SkelAcc
  | 0, _, acc => acc
  | Nat.succ f, node, acc =>
    let childNodes := childrenOf nodes node.id
    let acc1 := childNodes.foldl (fun a c => processNode env g nodes f c a) acc
    match skeletonizeNode env g node childNodes acc1 with
    | (acc2, some sk) => { acc2 with skels := acc2.skels ++ [sk] }
    | (acc2, none) => acc2

/-- The `skeletonizeCodeNodes` method: nodes with a truthy parent id go to
the parent map, the rest are root nodes, processed in order. -/
def skeletonizeCodeNodes (env : Env) (g : CodeGraph) (fuel : Nat)
    (nodes : List CodeGraphNode) : SkelAcc :=
  let rootNodes := nodes.filter (fun n => !truthy n.parentNodeId)
  rootNodes.foldl (fun a r => processNode env g nodes fuel r a) ⟨[], [], []⟩

/-! Document assembly. -/

def convertNodeId (env : Env) (id : String) : String :=
  if id.startsWith "file://" then env.relPath id else id

/-- The `embedCodeGraph` method: one persistable document per skeletonized
node plus the workspace-relative projections of both edge maps. -/
def embedCodeGraph (env : Env) (g : CodeGraph)
    (skeletonNodes : List SkeletonizedCodeGraphNode) : IndexerResult :=
  let codeDocs := skeletonNodes.map (fun sk =>
    let relatedNodes := (g.getImportEdge sk.id).getD []
    let fp := env.idToFilePath sk.id
    { id := sk.id
      pageContent := sk.skeleton
      filePath := if !fp.startsWith "/" then fp else fp.drop 1
      startRange := toString sk.location.range.startLine ++ "-" ++
        toString sk.location.range.startChar
      endRange := toString sk.location.range.endLine ++ "-" ++
        toString sk.location.range.endChar
      relatedNodes := relatedNodes.map env.relPath
      parentNodeId := sk.parentNodeId })
  let relativeImports := g.importEdges.map
    (fun kv => (convertNodeId env kv.1, kv.2.map (convertNodeId env)))
  let relativeExports := g.exportEdges.map
    (fun kv => (convertNodeId env kv.1, kv.2.map (convertNodeId env)))
  ⟨codeDocs, relativeImports, relativeExports⟩

/-! The indexing pass. -/

/-- State threaded through one `processDocuments` call: the Indexer state,
the call trace, the per-pass digest map and the per-pass visited set. -/
structure PassSt where
  st : IndexerSt
  tr : List Ev
  fileHashMap : List (String × String)
  alreadyVisited : List String
deriving DecidableEq

/-- Result of the per-parsed-node loop inside the frontier: either the loop
finished, or reading a foreign document threw (caught at the document-loop
boundary). -/
inductive NodeLoopRes where
  | ok (ps : PassSt) (seen queue : List String)
       (nodeIdsForFile : List String) (nodesToProcess : List (String × CodeGraphNode))
  | thrown (ps : PassSt)
deriving DecidableEq

def NodeLoopRes.passSt : NodeLoopRes → PassSt
  | .ok ps _ _ _ _ => ps
  | .thrown ps => ps

/-- The loop over a parsed document's nodes: cross-file nodes are resolved
against the symbol table, filtered by inclusion, pruned when current and
otherwise added to the frontier; same-file nodes are collected for
skeletonization together with their relative ids. -/
def processParsedNodes (env : Env) (currentDocument : String) :
    List CodeGraphNode → PassSt → List String → List String →
    List String → List (String × CodeGraphNode) → NodeLoopRes
  | [], ps, seen, queue, ids, ntp => .ok ps seen queue ids ntp
  | node :: rest, ps, seen, queue, ids, ntp =>
    if node.location.uri ≠ currentDocument then
      match getFileFromSymbolTable env ps.st.graph node.location.uri with
      | (tr1, none) => .thrown { ps with tr := ps.tr ++ tr1 }
      | (tr1, some (file, rel, sha)) =>
        let ps1 : PassSt := { ps with tr := ps.tr ++ tr1 }
        let incl := shouldIncludeFile env ps1.st rel
        let ps2 : PassSt := { ps1 with st := incl.1 }
        if !incl.2 then
          processParsedNodes env currentDocument rest ps2 seen queue ids ntp
        else if fileAlreadyIndexed file rel sha ps2.fileHashMap then
          processParsedNodes env currentDocument rest ps2 seen queue ids ntp
        else if seen.contains node.location.uri then
          processParsedNodes env currentDocument rest ps2 seen queue ids ntp
        else
          processParsedNodes env currentDocument rest ps2
            (seen ++ [node.location.uri]) (queue ++ [node.location.uri]) ids ntp
    else
      processParsedNodes env currentDocument rest ps seen queue
        (addSet ids (env.relPath node.id)) (setA ntp node.id node)

/-- Result of the frontier loop: finished with the collected nodes, threw
(caught at the document-loop boundary), hit one of the two bare returns, or
ran out of fuel. -/
inductive FrontierRes where
  | done (ps : PassSt) (nodesToProcess : List (String × CodeGraphNode))
  | thrown (ps : PassSt)
  | ret (ps : PassSt)
  | fuelOut (ps : PassSt)
deriving DecidableEq

def FrontierRes.passSt : FrontierRes → PassSt
  | .done ps _ => ps
  | .thrown ps => ps
  | .ret ps => ps
  | .fuelOut ps => ps

/-- The frontier loop of `processDocuments` step 3: visit each related
document once, short-circuit current files, otherwise notify progress, read
and parse the document (a zero-node parse is a bare return from the whole
call), walk its nodes and atomically record the file's entry, digest and
edges. -/
def frontierLoop (env : Env) :
    Nat → PassSt → List String → List String → List (String × CodeGraphNode) → FrontierRes
  | _, ps, _, [], ntp => .done ps ntp
  | 0, ps, _, _ :: _, _ => .fuelOut ps
  | Nat.succ f, ps, seen, cur :: rest, ntp =>
    if ps.alreadyVisited.contains cur then
      frontierLoop env f ps seen rest ntp
    else
      let ps0 : PassSt := { ps with alreadyVisited := ps.alreadyVisited ++ [cur] }
      match getFileFromSymbolTable env ps0.st.graph cur with
      | (tr1, none) => .thrown { ps0 with tr := ps0.tr ++ tr1 }
      | (tr1, some (file, rel, sha)) =>
        let ps1 : PassSt := { ps0 with tr := ps0.tr ++ tr1 }
        if fileAlreadyIndexed file rel sha ps1.fileHashMap then
          frontierLoop env f ps1 seen rest ntp
        else
          let ps2 : PassSt := { ps1 with tr := ps1.tr ++ [Ev.fileProcessing rel] }
          match env.docs cur with
          | none => .ret { ps2 with tr := ps2.tr ++ [Ev.readDoc cur] }
          | some text =>
            let ps3 : PassSt := { ps2 with tr := ps2.tr ++ [Ev.readDoc cur, Ev.parseCall cur] }
            let pr := (env.createNodesFromDocument cur text).getD ⟨[], [], []⟩
            if pr.nodes.isEmpty then .ret ps3
            else
              match processParsedNodes env cur pr.nodes ps3 seen rest [] ntp with
              | .thrown ps4 => .thrown ps4
              | .ok ps4 seen2 queue2 ids ntp2 =>
                let g5 := ps4.st.graph.updateFileWithEdges rel ⟨ids, sha⟩
                  pr.importEdges pr.exportEdges
                let ps5 : PassSt := { ps4 with
                  fileHashMap := setA ps4.fileHashMap rel sha,
                  st := { ps4.st with graph := g5 } }
                frontierLoop env f ps5 seen2 queue2 ntp2

/-- The Code Graph after a file's entry and edges are recorded. -/
def graphAfter (env : Env) (g : CodeGraph) (u sha : String) (ids2 : List String)
    (pr : ParseResult) : CodeGraph :=
  g.updateFileWithEdges (env.relPath u) ⟨ids2, sha⟩ pr.importEdges pr.exportEdges

/-- The pass state after one frontier step that parsed a document whose
nodes all live in that document. -/
def afterParseStep (env : Env) (ps : PassSt) (cur sha : String) (ids2 : List String)
    (pr : ParseResult) : PassSt :=
  { st := { ps.st with graph := graphAfter env ps.st.graph cur sha ids2 pr },
    tr := (ps.tr ++ [Ev.readDoc cur]) ++ [Ev.fileProcessing (env.relPath cur)]
      ++ [Ev.readDoc cur, Ev.parseCall cur],
    fileHashMap := setA ps.fileHashMap (env.relPath cur) sha,
    alreadyVisited := ps.alreadyVisited ++ [cur] }

/-- Result of one top-level batch item: continue with the next identifier
(also after a caught error), bare return, or fuel exhaustion. -/
inductive DocRes where
  | next (ps : PassSt)
  | ret (ps : PassSt)
  | fuelOut (ps : PassSt)
deriving DecidableEq

def DocRes.passSt : DocRes → PassSt
  | .next ps => ps
  | .ret ps => ps
  | .fuelOut ps => ps

/-- One iteration of the batch loop: dedup, the deletion branch for files
missing on disk (store query, delete, graph removal, un-awaited removal
callback), otherwise the frontier, then skeletonization, document assembly
and the store commit, whose failure is caught at this boundary. -/
def processOneDoc (env : Env) (fuel : Nat) (fullBuild : Bool)
    (ps : PassSt) (documentUri : String) : DocRes :=
  if ps.alreadyVisited.contains documentUri then .next ps
  else
    match env.docs documentUri with
    | none =>
      let relativePath := env.relPath documentUri
      let ids := env.docsByPath relativePath
      let ps1 : PassSt := { ps with tr := ps.tr ++ [Ev.findDocsCall [relativePath]] }
      let ps2 : PassSt :=
        if ids.isEmpty then ps1
        else { ps1 with tr := ps1.tr ++ [Ev.deleteDocsCall ids],
                        st := { ps1.st with storeDeleted := ps1.st.storeDeleted ++ [ids] } }
      let ps3 : PassSt := { ps2 with st := { ps2.st with
        graph := ps2.st.graph.removeFileFromSymbolTable relativePath } }
      .next { ps3 with tr := ps3.tr ++ [Ev.fileRemovedCall documentUri] }
    | some _ =>
      match frontierLoop env fuel ps [documentUri] [documentUri] [] with
      | .fuelOut ps1 => .fuelOut ps1
      | .thrown ps1 => .next ps1
      | .ret ps1 => .ret ps1
      | .done ps1 ntp =>
        if ntp.isEmpty then .next ps1
        else
          let acc := skeletonizeCodeNodes env ps1.st.graph fuel (ntp.map (fun kv => kv.2))
          let ps2 : PassSt := { ps1 with tr := ps1.tr ++ acc.tr }
          if acc.skels.isEmpty then .next ps2
          else
            let res := embedCodeGraph env ps2.st.graph acc.skels
            let ps3 : PassSt := { ps2 with tr := ps2.tr ++ [Ev.saveCall] }
            if env.saveOk then
              .next { ps3 with st := { ps3.st with storeSaves := ps3.st.storeSaves ++
                [⟨res.codeDocs, res.relativeImports, res.relativeExports,
                  ps3.st.graph.symbolTable, !fullBuild⟩] } }
            else
              .next ps3

/-- How a `processDocuments` call settles: the promise resolves after the
full batch, resolves from one of the bare returns, rejects, or the model
ran out of fuel. -/
inductive PassOutcome where
  | completed
  | earlyReturn
  | rejected
  | fuelOut
deriving DecidableEq

structure PassResult where
  st : IndexerSt
  tr : List Ev
  out : PassOutcome
deriving DecidableEq

/-- The batch loop with its trailing reset of the syncing flag; a bare
return skips that reset. -/
def docLoop (env : Env) (fuel : Nat) (fullBuild : Bool) :
    List String → PassSt → PassResult
  | [], ps => ⟨{ ps.st with syncing := false }, ps.tr, .completed⟩
  | uri :: rest, ps =>
    match processOneDoc env fuel fullBuild ps uri with
    | .next ps1 => docLoop env fuel fullBuild rest ps1
    | .ret ps1 => ⟨ps1.st, ps1.tr, .earlyReturn⟩
    | .fuelOut ps1 => ⟨ps1.st, ps1.tr, .fuelOut⟩

/-- The `processDocuments` method: empty workspace or empty batch resets the
flag and returns; otherwise the flag is raised and the batch is processed. -/
def processDocuments (env : Env) (fuel : Nat) (st : IndexerSt)
    (documentUris : List String) (fullBuild : Bool) : PassResult :=
  if st.workspace = "" ∨ documentUris.isEmpty then
    ⟨{ st with syncing := false }, [], .completed⟩
  else
    docLoop env fuel fullBuild documentUris ⟨{ st with syncing := true }, [], [], []⟩

/-- The matched-file cache is either still unpopulated or holds exactly the
glob of the currently configured filter. -/
def cacheReady (env : Env) (st : IndexerSt) : Prop :=
  st.matchedFilesCache = none ∨
  st.matchedFilesCache = some (env.globMatch st.inclusionFilter)

/-- Relation between the pass state before and after a run of the
parsed-node loop: only the matched-file cache and the trace can change, and
the trace grows by parser-free events. -/
def nlInv (env : Env) (ps ps' : PassSt) : Prop :=
  (ps'.st = ps.st ∨
    ps'.st = { ps.st with matchedFilesCache := some (env.globMatch ps.st.inclusionFilter) }) ∧
  ps'.fileHashMap = ps.fileHashMap ∧
  ps'.alreadyVisited = ps.alreadyVisited ∧
  ∃ d, ps'.tr = ps.tr ++ d ∧ ∀ u, Ev.parseCall u ∉ d

/-- A file is current in the graph for a given digest. -/
def fileCurrent (g : CodeGraph) (rel sha : String) : Prop :=
  ∃ e, g.getFileFromSymbolTable rel = some e ∧ e.sha = sha

/-- Every text document cached during skeletonization agrees with the file
system. -/
def cacheCons (env : Env) (acc : SkelAcc) : Prop :=
  ∀ u t, lookupA acc.cache u = some t → env.docs u = some t

/-- The nodes a run of `skeletonizeCodeNodes` with fuel F invokes the
recursive `processNode` step on, each with its invocation fuel: the
parentNodeId-less roots directly (at full fuel), and every child of a
processed node through the parent map (at one unit less). -/
inductive Processed (nodes : List CodeGraphNode) (F : Nat) :
    CodeGraphNode → Nat → Prop where
  | root (p : CodeGraphNode) (hp : p ∈ nodes)
      (hroot : truthy p.parentNodeId = false) : Processed nodes F p F
  | child (a c : CodeGraphNode) (k : Nat)
      (ha : Processed nodes F a (k + 1))
      (hc : c ∈ childrenOf nodes a.id) : Processed nodes F c k

/-! Concrete instantiations used by counterexamples and witnesses. -/

def uriA : String := "file:///w/a.ts"

def uriB : String := "file:///w/b.ts"

def uriC : String := "file:///w/c.ts"

def rng0 : Range := ⟨0, 0, 0, 0⟩

def mkNode (id uri : String) (p : Option String) : CodeGraphNode :=
  ⟨id, ⟨uri, rng0⟩, p⟩

def nodeA : CodeGraphNode := mkNode uriA uriA none

def nodeB : CodeGraphNode := mkNode uriB uriB none

def nodeP : CodeGraphNode := mkNode "p" uriA none

def nodeC : CodeGraphNode := mkNode "c" uriA (some "p")

def nodeR : CodeGraphNode := mkNode "r" uriA none

def nodeP2 : CodeGraphNode := mkNode "p2" uriA (some "r")

def nodeC2 : CodeGraphNode := mkNode "c2" uriA (some "p2")

def emptyGraph : CodeGraph := ⟨[], [], [], []⟩

def stInit : IndexerSt := ⟨"w", "pat", false, none, emptyGraph, [], []⟩

def baseEnv : Env where
  docs := fun _ => none
  relPath := fun u => u.drop 10
  sha256 := fun t => t
  createNodesFromDocument := fun _ _ => none
  globMatch := fun _ => []
  getRange := fun t _ => t
  mergeCodeNodeSummariesIntoParent := fun _ raw ids _ =>
    raw ++ "|" ++ String.intercalate "," ids
  skeletonizeCodeGraphNode := fun _ n cb _ => "sk:" ++ n.id ++ ":" ++ cb
  docsByPath := fun _ => []
  saveOk := true
  idToFilePath := fun s => s.drop 10

/-- Environment in which a.ts parses to zero nodes while b.ts is readable,
stale and parses to one node. -/
def envZero : Env :=
  { baseEnv with
    docs := fun u => if u = uriA then some "contentA"
      else if u = uriB then some "contentB" else none
    createNodesFromDocument := fun u _ =>
      if u = uriA then some ⟨[], [], []⟩
      else if u = uriB then some ⟨[nodeB], [], []⟩ else none }

/-- Environment in which both a.ts and b.ts are readable, stale, parse to
one own node each, and the vector store's save fails. -/
def envSaveFail : Env :=
  { baseEnv with
    docs := fun u => if u = uriA then some "contentA"
      else if u = uriB then some "contentB" else none
    createNodesFromDocument := fun u _ =>
      if u = uriA then some ⟨[nodeA], [], []⟩
      else if u = uriB then some ⟨[nodeB], [], []⟩ else none
    saveOk := false }

/-- Environment in which c.ts is missing from disk (with one stored store
document) and b.ts is readable and stale. -/
def envGone : Env :=
  { baseEnv with
    docs := fun u => if u = uriB then some "contentB" else none
    createNodesFromDocument := fun u _ =>
      if u = uriB then some ⟨[nodeB], [], []⟩ else none
    docsByPath := fun p => if p = "c.ts" then ["doc-c"] else [] }

/-- Indexer state whose graph already records a.ts as current for content
"contentA" (the digest function of the concrete environments is the
identity). -/
def stWithA : IndexerSt :=
  { stInit with graph := ⟨[("a.ts", ⟨[], "contentA"⟩)], [], [], []⟩ }

/-- Environment whose glob matches path a under filter f1 and path b under
filter f2. -/
def envGlob : Env :=
  { baseEnv with globMatch := fun f =>
      if f = "f1" then ["a"] else if f = "f2" then ["b"] else [] }

def stF1 : IndexerSt := { stInit with inclusionFilter := "f1" }

/-- Environment in which only a.ts is readable. -/
def envDocA : Env :=
  { baseEnv with docs := fun u => if u = uriA then some "contentA" else none }

/-- Environment in which a.ts parses to one node of its own plus one node
located in b.ts, both files are readable, and the glob matches both relative
paths. -/
def envCross : Env :=
  { baseEnv with
    docs := fun u => if u = uriA then some "contentA"
      else if u = uriB then some "contentB" else none
    createNodesFromDocument := fun u _ =>
      if u = uriA then some ⟨[nodeA, nodeB], [], []⟩
      else if u = uriB then some ⟨[nodeB], [], []⟩ else none
    globMatch := fun _ => ["a.ts", "b.ts"] }

/-! Structural lemmas about the embedded operations. -/

theorem getFileFromSymbolTable_fst (env : Env) (g : CodeGraph) (u : String) :
    (getFileFromSymbolTable env g u).1 = [Ev.readDoc u] := by
  unfold getFileFromSymbolTable
  cases env.docs u <;> rfl

theorem getFileFromSymbolTable_some (env : Env) (g : CodeGraph) (u t : String)
    (h : env.docs u = some t) :
    getFileFromSymbolTable env g u =
      ([Ev.readDoc u],
       some (g.getFileFromSymbolTable (env.relPath u), env.relPath u, env.sha256 t)) := by
  unfold getFileFromSymbolTable
  rw [h]

theorem lookupA_setA_self {β : Type} (l : List (String × β)) (k : String) (v : β) :
    lookupA (setA l k v) k = some v := by
  induction l with
  | nil => simp [setA, lookupA]
  | cons kv rest ih =>
    obtain ⟨k1, v1⟩ := kv
    by_cases h : k1 = k
    · simp [setA, h, lookupA]
    · simp [setA, h, lookupA, ih]

theorem lookupA_setA_ne {β : Type} (l : List (String × β)) (k k' : String) (v : β)
    (h : k' ≠ k) :
    lookupA (setA l k v) k' = lookupA l k' := by
  induction l with
  | nil => simp [setA, lookupA, Ne.symm h]
  | cons kv rest ih =>
    obtain ⟨k1, v1⟩ := kv
    by_cases h1 : k1 = k
    · subst h1
      simp [setA, lookupA, Ne.symm h]
    · simp [setA, h1, lookupA, ih]

theorem shouldIncludeFile_eq (env : Env) (st : IndexerSt) (rel : String)
    (h : cacheReady env st) :
    shouldIncludeFile env st rel =
      (flipCache env st, (env.globMatch st.inclusionFilter).contains rel) := by
  obtain ⟨ws, filt, sy, mc, g, sv, sd⟩ := st
  rcases h with h | h <;>
    simp only [IndexerSt.matchedFilesCache] at h <;>
    subst h <;>
    rfl

theorem fileAlreadyIndexed_false (file : Option FileEntry) (rel sha : String)
    (fhm : List (String × String))
    (h1 : ∀ e, file = some e → e.sha ≠ sha)
    (h2 : lookupA fhm rel ≠ some sha) :
    fileAlreadyIndexed file rel sha fhm = false := by
  cases file with
  | none => rfl
  | some f =>
    simp only [fileAlreadyIndexed, Bool.or_eq_false_iff]
    constructor
    · exact beq_eq_false_iff_ne.mpr (h1 f rfl)
    · exact beq_eq_false_iff_ne.mpr h2

theorem fileAlreadyIndexed_true_stored (f : FileEntry) (rel sha : String)
    (fhm : List (String × String)) (h : f.sha = sha) :
    fileAlreadyIndexed (some f) rel sha fhm = true := by
  simp [fileAlreadyIndexed, h]

theorem docLoop_singleton_tr (env : Env) (fuel : Nat) (fb : Bool) (u : String)
    (ps : PassSt) :
    (docLoop env fuel fb [u] ps).tr = (processOneDoc env fuel fb ps u).passSt.tr := by
  unfold docLoop
  rcases h : processOneDoc env fuel fb ps u with ps1 | ps1 | ps1 <;>
    simp [DocRes.passSt, docLoop]

theorem trExt_trans {x y z : List Ev} (h1 : ∃ d, y = x ++ d) (h2 : ∃ d, z = y ++ d) :
    ∃ d, z = x ++ d := by
  obtain ⟨d1, rfl⟩ := h1
  obtain ⟨d2, rfl⟩ := h2
  exact ⟨d1 ++ d2, List.append_assoc x d1 d2⟩

theorem trExtP_trans {P : Ev → Prop} {x y z : List Ev}
    (h1 : ∃ d, y = x ++ d ∧ ∀ e, e ∈ d → P e)
    (h2 : ∃ d, z = y ++ d ∧ ∀ e, e ∈ d → P e) :
    ∃ d, z = x ++ d ∧ ∀ e, e ∈ d → P e := by
  obtain ⟨d1, rfl, hp1⟩ := h1
  obtain ⟨d2, rfl, hp2⟩ := h2
  refine ⟨d1 ++ d2, List.append_assoc x d1 d2, ?_⟩
  intro e he
  rcases List.mem_append.mp he with h | h
  · exact hp1 e h
  · exact hp2 e h

theorem processParsedNodes_tr_ext (env : Env) (cur : String) (P : Ev → Prop)
    (hrd : ∀ u, P (Ev.readDoc u)) :
    ∀ (nodes : List CodeGraphNode) (ps : PassSt) (seen queue ids : List String)
      (ntp : List (String × CodeGraphNode)),
    ∃ d, (processParsedNodes env cur nodes ps seen queue ids ntp).passSt.tr = ps.tr ++ d ∧
      ∀ e, e ∈ d → P e := by
  intro nodes
  induction nodes with
  | nil =>
    intro ps seen queue ids ntp
    exact ⟨[], by simp [processParsedNodes, NodeLoopRes.passSt], by simp⟩
  | cons node rest ih =>
    intro ps seen queue ids ntp
    simp only [processParsedNodes]
    by_cases hu : node.location.uri = cur
    · rw [if_neg (not_not_intro hu)]
      exact ih ps seen queue _ _
    · rw [if_pos hu]
      cases hg : env.docs node.location.uri with
      | none =>
        rw [show getFileFromSymbolTable env ps.st.graph node.location.uri =
            ([Ev.readDoc node.location.uri], none) from by
          unfold getFileFromSymbolTable
          rw [hg]]
        refine ⟨[Ev.readDoc node.location.uri], rfl, ?_⟩
        intro e he
        rw [List.mem_singleton] at he
        subst he
        exact hrd _
      | some t =>
        rw [getFileFromSymbolTable_some env ps.st.graph _ t hg]
        dsimp only
        refine trExtP_trans
          (show ∃ d, ps.tr ++ [Ev.readDoc node.location.uri] = ps.tr ++ d ∧
            ∀ e, e ∈ d → P e from ⟨_, rfl, by
              intro e he
              rw [List.mem_singleton] at he
              subst he
              exact hrd _⟩) ?_
        split
        · exact ih _ _ _ _ _
        · split
          · exact ih _ _ _ _ _
          · split
            · exact ih _ _ _ _ _
            · exact ih _ _ _ _ _

theorem frontierLoop_tr_ext (env : Env) (P : Ev → Prop)
    (hrd : ∀ u, P (Ev.readDoc u)) (hfp : ∀ r, P (Ev.fileProcessing r))
    (hpc : ∀ u, P (Ev.parseCall u)) :
    ∀ (fuel : Nat) (ps : PassSt) (seen queue : List String)
      (ntp : List (String × CodeGraphNode)),
    ∃ d, (frontierLoop env fuel ps seen queue ntp).passSt.tr = ps.tr ++ d ∧
      ∀ e, e ∈ d → P e := by
  intro fuel
  induction fuel with
  | zero =>
    intro ps seen queue ntp
    cases queue with
    | nil => exact ⟨[], by simp [frontierLoop, FrontierRes.passSt], by simp⟩
    | cons c r => exact ⟨[], by simp [frontierLoop, FrontierRes.passSt], by simp⟩
  | succ f ih =>
    intro ps seen queue ntp
    cases queue with
    | nil => exact ⟨[], by simp [frontierLoop, FrontierRes.passSt], by simp⟩
    | cons cur rest =>
      simp only [frontierLoop]
      cases hv : ps.alreadyVisited.contains cur with
      | true =>
        rw [if_pos rfl]
        exact ih ps seen rest ntp
      | false =>
        rw [if_neg (by simp)]
        cases hg : env.docs cur with
        | none =>
          rw [show getFileFromSymbolTable env
              ({ ps with alreadyVisited := ps.alreadyVisited ++ [cur] } : PassSt).st.graph cur =
              ([Ev.readDoc cur], none) from by
            unfold getFileFromSymbolTable
            rw [hg]]
          refine ⟨[Ev.readDoc cur], rfl, ?_⟩
          intro e he
          rw [List.mem_singleton] at he
          subst he
          exact hrd _
        | some t =>
          rw [getFileFromSymbolTable_some env _ cur t hg]
          dsimp only
          cases hfa : fileAlreadyIndexed
              (ps.st.graph.getFileFromSymbolTable (env.relPath cur))
              (env.relPath cur) (env.sha256 t) ps.fileHashMap with
          | true =>
            rw [if_pos rfl]
            refine trExtP_trans
              (show ∃ d, ps.tr ++ [Ev.readDoc cur] = ps.tr ++ d ∧ ∀ e, e ∈ d → P e from
                ⟨_, rfl, by
                  intro e he
                  rw [List.mem_singleton] at he
                  subst he
                  exact hrd _⟩) ?_
            exact ih _ _ _ _
          | false =>
            rw [if_neg (by simp)]
            split
            · refine ⟨[Ev.readDoc cur, Ev.fileProcessing (env.relPath cur),
                Ev.readDoc cur, Ev.parseCall cur], by simp [FrontierRes.passSt], ?_⟩
              intro e he
              simp only [List.mem_cons, List.mem_singleton, List.not_mem_nil,
                or_false] at he
              rcases he with rfl | rfl | rfl | rfl
              · exact hrd _
              · exact hfp _
              · exact hrd _
              · exact hpc _
            · rcases hnl : processParsedNodes env cur
                ((env.createNodesFromDocument cur t).getD ⟨[], [], []⟩).nodes
                { ps with
                  alreadyVisited := ps.alreadyVisited ++ [cur],
                  tr := (ps.tr ++ [Ev.readDoc cur]) ++ [Ev.fileProcessing (env.relPath cur)]
                    ++ [Ev.readDoc cur, Ev.parseCall cur] }
                seen rest [] ntp with ⟨ps4, seen2, queue2, ids, ntp2⟩ | ⟨ps4⟩
              · refine trExtP_trans ?_ (ih _ _ _ _)
                have h4 := processParsedNodes_tr_ext env cur P hrd
                  ((env.createNodesFromDocument cur t).getD ⟨[], [], []⟩).nodes
                  { ps with
                    alreadyVisited := ps.alreadyVisited ++ [cur],
                    tr := (ps.tr ++ [Ev.readDoc cur]) ++ [Ev.fileProcessing (env.relPath cur)]
                      ++ [Ev.readDoc cur, Ev.parseCall cur] }
                  seen rest [] ntp
                rw [hnl] at h4
                simp only [NodeLoopRes.passSt] at h4
                obtain ⟨d4, hd4, hp4⟩ := h4
                refine ⟨[Ev.readDoc cur] ++ [Ev.fileProcessing (env.relPath cur)]
                  ++ [Ev.readDoc cur, Ev.parseCall cur] ++ d4, by simp [hd4], ?_⟩
                intro e he
                simp only [List.mem_append, List.mem_cons, List.mem_singleton,
                  List.not_mem_nil, or_false] at he
                rcases he with ((rfl | rfl) | rfl | rfl) | hmem
                · exact hrd _
                · exact hfp _
                · exact hrd _
                · exact hpc _
                · exact hp4 e hmem
              · have h4 := processParsedNodes_tr_ext env cur P hrd
                  ((env.createNodesFromDocument cur t).getD ⟨[], [], []⟩).nodes
                  { ps with
                    alreadyVisited := ps.alreadyVisited ++ [cur],
                    tr := (ps.tr ++ [Ev.readDoc cur]) ++ [Ev.fileProcessing (env.relPath cur)]
                      ++ [Ev.readDoc cur, Ev.parseCall cur] }
                  seen rest [] ntp
                rw [hnl] at h4
                simp only [NodeLoopRes.passSt] at h4
                obtain ⟨d4, hd4, hp4⟩ := h4
                refine ⟨[Ev.readDoc cur] ++ [Ev.fileProcessing (env.relPath cur)]
                  ++ [Ev.readDoc cur, Ev.parseCall cur] ++ d4,
                  by simp [FrontierRes.passSt, hd4], ?_⟩
                intro e he
                simp only [List.mem_append, List.mem_cons, List.mem_singleton,
                  List.not_mem_nil, or_false] at he
                rcases he with ((rfl | rfl) | rfl | rfl) | hmem
                · exact hrd _
                · exact hfp _
                · exact hrd _
                · exact hpc _
                · exact hp4 e hmem

theorem lookupA_setA_cases {β : Type} (l : List (String × β)) (k k' : String) (v : β) :
    lookupA (setA l k v) k' = if k' = k then some v else lookupA l k' := by
  by_cases h : k' = k
  · subst h
    rw [if_pos rfl, lookupA_setA_self]
  · rw [if_neg h, lookupA_setA_ne l k k' v h]

theorem skeletonizeNode_acc (env : Env) (g : CodeGraph) (node : CodeGraphNode)
    (cs : List CodeGraphNode) (acc : SkelAcc) (P : Ev → Prop)
    (hrd : ∀ u, P (Ev.readDoc u)) (hgc : ∀ n c, P (Ev.genCall n c)) :
    (skeletonizeNode env g node cs acc).1.skels = acc.skels ∧
    (cacheCons env acc → cacheCons env (skeletonizeNode env g node cs acc).1) ∧
    ∃ d, (skeletonizeNode env g node cs acc).1.tr = acc.tr ++ d ∧ ∀ e, e ∈ d → P e := by
  unfold skeletonizeNode
  cases hc : lookupA acc.cache node.location.uri with
  | some text =>
    refine ⟨rfl, fun h => h, ?_⟩
    exact ⟨[Ev.genCall node.id _], rfl, by
      intro e he
      simp only [List.mem_singleton] at he
      subst he
      exact hgc _ _⟩
  | none =>
    cases hd : env.docs node.location.uri with
    | none =>
      refine ⟨rfl, fun h => h, ?_⟩
      exact ⟨[Ev.readDoc node.location.uri], rfl, by
        intro e he
        simp only [List.mem_singleton] at he
        subst he
        exact hrd _⟩
    | some text =>
      refine ⟨rfl, ?_, ?_⟩
      · intro h u t ht
        simp only at ht
        rw [lookupA_setA_cases] at ht
        by_cases hu : u = node.location.uri
        · rw [if_pos hu] at ht
          cases ht
          rw [hu, hd]
        · rw [if_neg hu] at ht
          exact h u t ht
      · refine ⟨[Ev.readDoc node.location.uri, Ev.genCall node.id
          (if cs.isEmpty then env.getRange text node.location.range
           else env.mergeCodeNodeSummariesIntoParent node.location
             (env.getRange text node.location.range)
             (cs.map (fun n => n.id)) acc.skels)], by simp, ?_⟩
        intro e he
        simp only [List.mem_cons, List.mem_singleton] at he
        rcases he with rfl | rfl | h
        · exact hrd _
        · exact hgc _ _
        · cases h

theorem processNode_acc (env : Env) (g : CodeGraph) (nodes : List CodeGraphNode)
    (P : Ev → Prop) (hrd : ∀ u, P (Ev.readDoc u)) (hgc : ∀ n c, P (Ev.genCall n c)) :
    ∀ (f : Nat) (node : CodeGraphNode) (acc : SkelAcc),
    (∃ e, (processNode env g nodes f node acc).skels = acc.skels ++ e) ∧
    (∃ d, (processNode env g nodes f node acc).tr = acc.tr ++ d ∧ ∀ ev, ev ∈ d → P ev) ∧
    (cacheCons env acc → cacheCons env (processNode env g nodes f node acc)) := by
  intro f
  induction f with
  | zero =>
    intro node acc
    refine ⟨⟨[], by simp [processNode]⟩, ⟨[], by simp [processNode], by simp⟩, fun h => ?_⟩
    simpa [processNode] using h
  | succ f ih =>
    have fold : ∀ (l : List CodeGraphNode) (acc : SkelAcc),
        (∃ e, (l.foldl (fun a c => processNode env g nodes f c a) acc).skels =
          acc.skels ++ e) ∧
        (∃ d, (l.foldl (fun a c => processNode env g nodes f c a) acc).tr = acc.tr ++ d ∧
          ∀ ev, ev ∈ d → P ev) ∧
        (cacheCons env acc →
          cacheCons env (l.foldl (fun a c => processNode env g nodes f c a) acc)) := by
      intro l
      induction l with
      | nil =>
        intro acc
        exact ⟨⟨[], by simp⟩, ⟨[], by simp, by simp⟩, fun h => h⟩
      | cons c csl ihl =>
        intro acc
        obtain ⟨⟨e1, he1⟩, ⟨d1, hd1, hp1⟩, hc1⟩ := ih c acc
        obtain ⟨⟨e2, he2⟩, ⟨d2, hd2, hp2⟩, hc2⟩ := ihl (processNode env g nodes f c acc)
        refine ⟨⟨e1 ++ e2, ?_⟩, ⟨d1 ++ d2, ?_, ?_⟩, ?_⟩
        · rw [List.foldl_cons, he2, he1, List.append_assoc]
        · rw [List.foldl_cons, hd2, hd1, List.append_assoc]
        · intro ev hev
          rcases List.mem_append.mp hev with h | h
          · exact hp1 ev h
          · exact hp2 ev h
        · intro h
          exact hc2 (hc1 h)
    intro node acc
    obtain ⟨⟨e1, he1⟩, ⟨d1, hd1, hp1⟩, hc1⟩ := fold (childrenOf nodes node.id) acc
    obtain ⟨hsk, hcc, d2, hd2, hp2⟩ := skeletonizeNode_acc env g node (childrenOf nodes node.id)
      ((childrenOf nodes node.id).foldl (fun a c => processNode env g nodes f c a) acc)
      P hrd hgc
    have hunf : processNode env g nodes (f + 1) node acc =
        (match skeletonizeNode env g node (childrenOf nodes node.id)
          ((childrenOf nodes node.id).foldl (fun a c => processNode env g nodes f c a) acc) with
        | (acc2, some sk) => { acc2 with skels := acc2.skels ++ [sk] }
        | (acc2, none) => acc2) := rfl
    rcases hres : skeletonizeNode env g node (childrenOf nodes node.id)
      ((childrenOf nodes node.id).foldl (fun a c => processNode env g nodes f c a) acc)
      with ⟨acc2, osk⟩
    rw [hres] at hsk hcc hd2
    simp only at hsk hcc hd2
    cases osk with
    | none =>
      rw [hunf, hres]
      refine ⟨⟨e1, by simpa [hsk] using he1⟩, ⟨d1 ++ d2, ?_, ?_⟩, fun h => ?_⟩
      · simp [hd2, hd1]
      · intro ev hev
        rcases List.mem_append.mp hev with h | h
        · exact hp1 ev h
        · exact hp2 ev h
      · exact hcc (hc1 h)
    | some sk =>
      rw [hunf, hres]
      refine ⟨⟨e1 ++ [sk], ?_⟩, ⟨d1 ++ d2, ?_, ?_⟩, fun h => ?_⟩
      · simp [hsk, he1]
      · simp [hd2, hd1]
      · intro ev hev
        rcases List.mem_append.mp hev with h | h
        · exact hp1 ev h
        · exact hp2 ev h
      · intro u t ht
        exact hcc (hc1 h) u t ht

theorem processNodeFold_acc (env : Env) (g : CodeGraph) (nodes : List CodeGraphNode)
    (P : Ev → Prop) (hrd : ∀ u, P (Ev.readDoc u)) (hgc : ∀ n c, P (Ev.genCall n c))
    (f : Nat) :
    ∀ (l : List CodeGraphNode) (acc : SkelAcc),
    (∃ e, (l.foldl (fun a c => processNode env g nodes f c a) acc).skels =
      acc.skels ++ e) ∧
    (∃ d, (l.foldl (fun a c => processNode env g nodes f c a) acc).tr = acc.tr ++ d ∧
      ∀ ev, ev ∈ d → P ev) ∧
    (cacheCons env acc →
      cacheCons env (l.foldl (fun a c => processNode env g nodes f c a) acc)) := by
  intro l
  induction l with
  | nil =>
    intro acc
    exact ⟨⟨[], by simp⟩, ⟨[], by simp, by simp⟩, fun h => h⟩
  | cons c csl ihl =>
    intro acc
    obtain ⟨⟨e1, he1⟩, ⟨d1, hd1, hp1⟩, hc1⟩ := processNode_acc env g nodes P hrd hgc f c acc
    obtain ⟨⟨e2, he2⟩, ⟨d2, hd2, hp2⟩, hc2⟩ := ihl (processNode env g nodes f c acc)
    refine ⟨⟨e1 ++ e2, ?_⟩, ⟨d1 ++ d2, ?_, ?_⟩, ?_⟩
    · rw [List.foldl_cons, he2, he1, List.append_assoc]
    · rw [List.foldl_cons, hd2, hd1, List.append_assoc]
    · intro ev hev
      rcases List.mem_append.mp hev with h | h
      · exact hp1 ev h
      · exact hp2 ev h
    · intro h
      exact hc2 (hc1 h)

theorem skeletonizeNode_success (env : Env) (g : CodeGraph) (node : CodeGraphNode)
    (cs : List CodeGraphNode) (acc : SkelAcc) (t : String)
    (hc : cacheCons env acc) (hd : env.docs node.location.uri = some t) :
    ∃ c1 rd,
      skeletonizeNode env g node cs acc =
        (⟨c1, acc.skels,
          acc.tr ++ rd ++ [Ev.genCall node.id (nodeCodeBlock env node cs acc.skels t)]⟩,
         some (mkSkeleton env g node (nodeCodeBlock env node cs acc.skels t))) ∧
      (∀ u tu, lookupA c1 u = some tu → env.docs u = some tu) := by
  unfold skeletonizeNode
  cases hcl : lookupA acc.cache node.location.uri with
  | some tx =>
    have htx : tx = t := by
      have h2 := hc _ _ hcl
      rw [hd] at h2
      exact (Option.some.inj h2).symm
    subst htx
    refine ⟨acc.cache, [], ?_, hc⟩
    simp [nodeCodeBlock, mkSkeleton]
  | none =>
    rw [hd]
    refine ⟨setA acc.cache node.location.uri t, [Ev.readDoc node.location.uri], ?_, ?_⟩
    · simp [nodeCodeBlock, mkSkeleton]
    · intro u tu htu
      rw [lookupA_setA_cases] at htu
      by_cases hu : u = node.location.uri
      · rw [if_pos hu] at htu
        cases htu
        rw [hu, hd]
      · rw [if_neg hu] at htu
        exact hc u tu htu

theorem processNode_own (env : Env) (g : CodeGraph) (nodes : List CodeGraphNode)
    (f : Nat) (hf : 1 ≤ f) (node : CodeGraphNode) (acc : SkelAcc) (t : String)
    (hc : cacheCons env acc) (hd : env.docs node.location.uri = some t) :
    (∃ e sk, (processNode env g nodes f node acc).skels = acc.skels ++ e ++ [sk] ∧
      sk.id = node.id ∧ sk.parentNodeId = node.parentNodeId) ∧
    cacheCons env (processNode env g nodes f node acc) := by
  obtain ⟨f', rfl⟩ : ∃ f', f = f' + 1 := ⟨f - 1, (Nat.succ_pred_eq_of_pos hf).symm⟩
  obtain ⟨⟨e1, he1⟩, _, hc1⟩ := processNodeFold_acc env g nodes (fun _ => True)
    (fun _ => trivial) (fun _ _ => trivial) f' (childrenOf nodes node.id) acc
  obtain ⟨c1, rd, heq, hcc⟩ := skeletonizeNode_success env g node (childrenOf nodes node.id)
    ((childrenOf nodes node.id).foldl (fun a c => processNode env g nodes f' c a) acc) t
    (hc1 hc) hd
  have hunf : processNode env g nodes (f' + 1) node acc =
      (match skeletonizeNode env g node (childrenOf nodes node.id)
        ((childrenOf nodes node.id).foldl (fun a c => processNode env g nodes f' c a) acc) with
      | (acc2, some sk) => { acc2 with skels := acc2.skels ++ [sk] }
      | (acc2, none) => acc2) := rfl
  rw [hunf, heq]
  constructor
  · refine ⟨e1, mkSkeleton env g node
      (nodeCodeBlock env node (childrenOf nodes node.id)
        ((childrenOf nodes node.id).foldl
          (fun a c => processNode env g nodes f' c a) acc).skels t), ?_, rfl, rfl⟩
    simp [he1]
  · intro u tu htu
    exact hcc u tu htu

theorem processNodeFold_child_mem (env : Env) (g : CodeGraph) (nodes : List CodeGraphNode)
    (f : Nat) (hf : 1 ≤ f) :
    ∀ (l : List CodeGraphNode) (acc : SkelAcc), cacheCons env acc →
    ∀ c, c ∈ l → (∃ tc, env.docs c.location.uri = some tc) →
    ∃ s, s ∈ (l.foldl (fun a c => processNode env g nodes f c a) acc).skels ∧
      s.id = c.id ∧ s.parentNodeId = c.parentNodeId := by
  intro l
  induction l with
  | nil =>
    intro acc hacc c hc
    cases hc
  | cons c' l' ihl =>
    intro acc hacc c hc hread
    rw [List.foldl_cons]
    rcases List.mem_cons.mp hc with rfl | hmem
    · obtain ⟨tc, htc⟩ := hread
      obtain ⟨⟨e, sk, hsk, hid, hpar⟩, _⟩ :=
        processNode_own env g nodes f hf c acc tc hacc htc
      obtain ⟨⟨e2, he2⟩, _, _⟩ := processNodeFold_acc env g nodes (fun _ => True)
        (fun _ => trivial) (fun _ _ => trivial) f l' (processNode env g nodes f c acc)
      refine ⟨sk, ?_, hid, hpar⟩
      rw [he2, hsk]
      simp
    · obtain ⟨_, _, hcacc⟩ := processNode_acc env g nodes (fun _ => True)
        (fun _ => trivial) (fun _ _ => trivial) f c' acc
      exact ihl (processNode env g nodes f c' acc) (hcacc hacc) c hmem hread

theorem processNode_some (env : Env) (g : CodeGraph) (nodes : List CodeGraphNode)
    (f : Nat) (node : CodeGraphNode) (acc : SkelAcc) (t : String)
    (hc : cacheCons env acc) (hd : env.docs node.location.uri = some t) :
    ∃ pre,
      (∃ e, pre = acc.skels ++ e) ∧
      (processNode env g nodes (f + 1) node acc).skels =
        pre ++ [mkSkeleton env g node
          (nodeCodeBlock env node (childrenOf nodes node.id) pre t)] ∧
      Ev.genCall node.id (nodeCodeBlock env node (childrenOf nodes node.id) pre t) ∈
        (processNode env g nodes (f + 1) node acc).tr ∧
      (∀ c, c ∈ childrenOf nodes node.id → 1 ≤ f →
        (∃ tc, env.docs c.location.uri = some tc) →
        ∃ s, s ∈ pre ∧ s.id = c.id ∧ s.parentNodeId = c.parentNodeId) := by
  obtain ⟨⟨e1, he1⟩, _, hc1⟩ := processNodeFold_acc env g nodes (fun _ => True)
    (fun _ => trivial) (fun _ _ => trivial) f (childrenOf nodes node.id) acc
  obtain ⟨c1, rd, heq, hcc⟩ := skeletonizeNode_success env g node (childrenOf nodes node.id)
    ((childrenOf nodes node.id).foldl (fun a c => processNode env g nodes f c a) acc) t
    (hc1 hc) hd
  have hunf : processNode env g nodes (f + 1) node acc =
      (match skeletonizeNode env g node (childrenOf nodes node.id)
        ((childrenOf nodes node.id).foldl (fun a c => processNode env g nodes f c a) acc) with
      | (acc2, some sk) => { acc2 with skels := acc2.skels ++ [sk] }
      | (acc2, none) => acc2) := rfl
  rw [hunf, heq]
  refine ⟨((childrenOf nodes node.id).foldl
      (fun a c => processNode env g nodes f c a) acc).skels,
    ⟨e1, he1⟩, rfl, ?_, ?_⟩
  · simp
  · intro c hcm hf1 hread
    exact processNodeFold_child_mem env g nodes f hf1 (childrenOf nodes node.id)
      acc hc c hcm hread

theorem skeletonizeCodeNodes_tr_pred (env : Env) (g : CodeGraph) (fuel : Nat)
    (nodes : List CodeGraphNode) (P : Ev → Prop)
    (hrd : ∀ u, P (Ev.readDoc u)) (hgc : ∀ n c, P (Ev.genCall n c)) :
    ∀ e, e ∈ (skeletonizeCodeNodes env g fuel nodes).tr → P e := by
  obtain ⟨_, ⟨d, hd, hp⟩, _⟩ := processNodeFold_acc env g nodes P hrd hgc fuel
    (nodes.filter (fun m => !truthy m.parentNodeId)) ⟨[], [], []⟩
  intro e he
  have hunf : skeletonizeCodeNodes env g fuel nodes =
      (nodes.filter (fun m => !truthy m.parentNodeId)).foldl
        (fun a r => processNode env g nodes fuel r a) ⟨[], [], []⟩ := rfl
  rw [hunf, hd] at he
  simp only [List.nil_append] at he
  exact hp e he

theorem processOneDoc_tr_shape (env : Env) (fuel : Nat) (fb : Bool) (ps : PassSt)
    (u : String) (P : Ev → Prop)
    (hrd : ∀ x, P (Ev.readDoc x)) (hfp : ∀ x, P (Ev.fileProcessing x))
    (hpc : ∀ x, P (Ev.parseCall x)) (hgc : ∀ x c, P (Ev.genCall x c))
    (hfd : ∀ x, P (Ev.findDocsCall x)) (hdd : ∀ x, P (Ev.deleteDocsCall x))
    (hfr : ∀ x, P (Ev.fileRemovedCall x)) (hsv : P Ev.saveCall) :
    ∃ d, (processOneDoc env fuel fb ps u).passSt.tr = ps.tr ++ d ∧
      (∀ e, e ∈ d → P e) ∧
      (Ev.saveCall ∉ d ∨ ∃ d1, d = d1 ++ [Ev.saveCall] ∧ Ev.saveCall ∉ d1) := by
  unfold processOneDoc
  cases hv : ps.alreadyVisited.contains u with
  | true =>
    rw [if_pos rfl]
    exact ⟨[], by simp [DocRes.passSt], by simp, Or.inl (by simp)⟩
  | false =>
    rw [if_neg (by simp)]
    cases hgu : env.docs u with
    | none =>
      dsimp only
      split
      · refine ⟨[Ev.findDocsCall [env.relPath u], Ev.fileRemovedCall u],
          by simp [DocRes.passSt], ?_, Or.inl (by simp)⟩
        intro e he
        simp only [List.mem_cons, List.mem_singleton, List.not_mem_nil, or_false] at he
        rcases he with rfl | rfl
        · exact hfd _
        · exact hfr _
      · refine ⟨[Ev.findDocsCall [env.relPath u], Ev.deleteDocsCall (env.docsByPath (env.relPath u)),
          Ev.fileRemovedCall u], by simp [DocRes.passSt], ?_, Or.inl (by simp)⟩
        intro e he
        simp only [List.mem_cons, List.mem_singleton, List.not_mem_nil, or_false] at he
        rcases he with rfl | rfl | rfl
        · exact hfd _
        · exact hdd _
        · exact hfr _
    | some t =>
      dsimp only
      have hF := frontierLoop_tr_ext env (fun e => P e ∧ e ≠ Ev.saveCall)
        (fun x => ⟨hrd x, by simp⟩) (fun x => ⟨hfp x, by simp⟩) (fun x => ⟨hpc x, by simp⟩)
        fuel ps [u] [u] []
      rcases hFr : frontierLoop env fuel ps [u] [u] [] with ⟨ps1, ntp⟩ | ⟨ps1⟩ | ⟨ps1⟩ | ⟨ps1⟩ <;>
        rw [hFr] at hF <;>
        simp only [FrontierRes.passSt] at hF <;>
        obtain ⟨dF, hdF, hpF⟩ := hF <;>
        dsimp only
      · split
        · exact ⟨dF, by simp [DocRes.passSt, hdF],
            fun e he => (hpF e he).1, Or.inl (fun hmem => (hpF _ hmem).2 rfl)⟩
        · have hS := skeletonizeCodeNodes_tr_pred env ps1.st.graph fuel
            (ntp.map (fun kv => kv.2)) (fun e => P e ∧ e ≠ Ev.saveCall)
            (fun x => ⟨hrd x, by simp⟩) (fun x c => ⟨hgc x c, by simp⟩)
          split
          · refine ⟨dF ++ (skeletonizeCodeNodes env ps1.st.graph fuel
              (ntp.map (fun kv => kv.2))).tr, by simp [DocRes.passSt, hdF], ?_, Or.inl ?_⟩
            · intro e he
              rcases List.mem_append.mp he with h | h
              · exact (hpF e h).1
              · exact (hS e h).1
            · intro hmem
              rcases List.mem_append.mp hmem with h | h
              · exact (hpF _ h).2 rfl
              · exact (hS _ h).2 rfl
          · split
            · refine ⟨dF ++ (skeletonizeCodeNodes env ps1.st.graph fuel
                (ntp.map (fun kv => kv.2))).tr ++ [Ev.saveCall],
                by simp [DocRes.passSt, hdF], ?_, Or.inr ?_⟩
              · intro e he
                simp only [List.mem_append, List.mem_singleton] at he
                rcases he with (h | h) | rfl
                · exact (hpF e h).1
                · exact (hS e h).1
                · exact hsv
              · refine ⟨dF ++ (skeletonizeCodeNodes env ps1.st.graph fuel
                  (ntp.map (fun kv => kv.2))).tr, by simp, ?_⟩
                intro hmem
                rcases List.mem_append.mp hmem with h | h
                · exact (hpF _ h).2 rfl
                · exact (hS _ h).2 rfl
            · refine ⟨dF ++ (skeletonizeCodeNodes env ps1.st.graph fuel
                (ntp.map (fun kv => kv.2))).tr ++ [Ev.saveCall],
                by simp [DocRes.passSt, hdF], ?_, Or.inr ?_⟩
              · intro e he
                simp only [List.mem_append, List.mem_singleton] at he
                rcases he with (h | h) | rfl
                · exact (hpF e h).1
                · exact (hS e h).1
                · exact hsv
              · refine ⟨dF ++ (skeletonizeCodeNodes env ps1.st.graph fuel
                  (ntp.map (fun kv => kv.2))).tr, by simp, ?_⟩
                intro hmem
                rcases List.mem_append.mp hmem with h | h
                · exact (hpF _ h).2 rfl
                · exact (hS _ h).2 rfl
      · exact ⟨dF, by simp [DocRes.passSt, hdF],
          fun e he => (hpF e he).1, Or.inl (fun hmem => (hpF _ hmem).2 rfl)⟩
      · exact ⟨dF, by simp [DocRes.passSt, hdF],
          fun e he => (hpF e he).1, Or.inl (fun hmem => (hpF _ hmem).2 rfl)⟩
      · exact ⟨dF, by simp [DocRes.passSt, hdF],
          fun e he => (hpF e he).1, Or.inl (fun hmem => (hpF _ hmem).2 rfl)⟩

theorem docLoop_tr_pred (env : Env) (fuel : Nat) (fb : Bool) (P : Ev → Prop)
    (hrd : ∀ x, P (Ev.readDoc x)) (hfp : ∀ x, P (Ev.fileProcessing x))
    (hpc : ∀ x, P (Ev.parseCall x)) (hgc : ∀ x c, P (Ev.genCall x c))
    (hfd : ∀ x, P (Ev.findDocsCall x)) (hdd : ∀ x, P (Ev.deleteDocsCall x))
    (hfr : ∀ x, P (Ev.fileRemovedCall x)) (hsv : P Ev.saveCall) :
    ∀ (uris : List String) (ps : PassSt),
    ∃ d, (docLoop env fuel fb uris ps).tr = ps.tr ++ d ∧ ∀ e, e ∈ d → P e := by
  intro uris
  induction uris with
  | nil =>
    intro ps
    exact ⟨[], by simp [docLoop], by simp⟩
  | cons uri rest ih =>
    intro ps
    obtain ⟨d0, hd0, hp0⟩ := processOneDoc_tr_shape env fuel fb ps uri P
      hrd hfp hpc hgc hfd hdd hfr hsv
    simp only [docLoop]
    rcases hres : processOneDoc env fuel fb ps uri with ⟨ps1⟩ | ⟨ps1⟩ | ⟨ps1⟩ <;>
      rw [hres] at hd0 <;>
      simp only [DocRes.passSt] at hd0
    · obtain ⟨d1, hd1, hp1⟩ := ih ps1
      refine ⟨d0 ++ d1, ?_, ?_⟩
      · rw [hd1, hd0, List.append_assoc]
      · intro e he
        rcases List.mem_append.mp he with h | h
        · exact hp0.1 e h
        · exact hp1 e h
    · exact ⟨d0, by simpa using hd0, hp0.1⟩
    · exact ⟨d0, by simpa using hd0, hp0.1⟩

theorem docLoop_not_rejected (env : Env) (fuel : Nat) (fb : Bool) :
    ∀ (uris : List String) (ps : PassSt),
    (docLoop env fuel fb uris ps).out ≠ PassOutcome.rejected := by
  intro uris
  induction uris with
  | nil =>
    intro ps
    simp [docLoop]
  | cons uri rest ih =>
    intro ps
    simp only [docLoop]
    rcases processOneDoc env fuel fb ps uri with ps1 | ps1 | ps1
    · exact ih ps1
    · simp
    · simp

theorem setA_ne_nil {β : Type} (l : List (String × β)) (k : String) (v : β) :
    setA l k v ≠ [] := by
  cases l with
  | nil => simp [setA]
  | cons kv rest =>
    obtain ⟨k1, v1⟩ := kv
    simp only [setA]
    split <;> simp

theorem getFile_update_self (g : CodeGraph) (rel : String) (entry : FileEntry)
    (i x : List (String × List String)) :
    (g.updateFileWithEdges rel entry i x).getFileFromSymbolTable rel = some entry := by
  unfold CodeGraph.updateFileWithEdges CodeGraph.getFileFromSymbolTable
  exact lookupA_setA_self g.symbolTable rel entry

theorem getFile_update_ne (g : CodeGraph) (rel rel' : String) (entry : FileEntry)
    (i x : List (String × List String)) (h : rel' ≠ rel) :
    (g.updateFileWithEdges rel entry i x).getFileFromSymbolTable rel' =
      g.getFileFromSymbolTable rel' := by
  unfold CodeGraph.updateFileWithEdges CodeGraph.getFileFromSymbolTable
  exact lookupA_setA_ne g.symbolTable rel rel' entry h

theorem fileAlreadyIndexed_true (e : FileEntry) (rel sha : String)
    (fhm : List (String × String))
    (h : e.sha = sha ∨ lookupA fhm rel = some sha) :
    fileAlreadyIndexed (some e) rel sha fhm = true := by
  rcases h with h | h <;> simp [fileAlreadyIndexed, h]

theorem processParsedNodes_local (env : Env) (cur : String) :
    ∀ (nodes : List CodeGraphNode) (ps : PassSt) (seen queue ids : List String)
      (ntp : List (String × CodeGraphNode)),
    (∀ n, n ∈ nodes → n.location.uri = cur) →
    ∃ ids2 ntp2,
      processParsedNodes env cur nodes ps seen queue ids ntp =
        .ok ps seen queue ids2 ntp2 ∧ (ntp2 = [] → ntp = [] ∧ nodes = []) := by
  intro nodes
  induction nodes with
  | nil =>
    intro ps seen queue ids ntp _
    exact ⟨ids, ntp, by simp [processParsedNodes], fun h => ⟨h, rfl⟩⟩
  | cons node rest ih =>
    intro ps seen queue ids ntp hloc
    simp only [processParsedNodes]
    rw [if_neg (not_not_intro (hloc node (List.mem_cons_self node rest)))]
    obtain ⟨ids2, ntp2, heq, hne⟩ := ih ps seen queue (addSet ids (env.relPath node.id))
      (setA ntp node.id node) (fun n hn => hloc n (List.mem_cons_of_mem node hn))
    refine ⟨ids2, ntp2, heq, fun h => ?_⟩
    exact absurd ((hne h).1) (setA_ne_nil ntp node.id node)

/-- One frontier step over a readable, stale document whose parse succeeds
and yields only nodes of that document: the step notifies progress, reads
and parses the document, records the digest in the pass map and the entry
and edges in the graph, and continues with the rest of the queue. -/
theorem frontierLoop_nil (env : Env) (fuel : Nat) (ps : PassSt) (seen : List String)
    (ntp : List (String × CodeGraphNode)) :
    frontierLoop env fuel ps seen [] ntp = FrontierRes.done ps ntp := by
  cases fuel <;> rfl

theorem frontierStep_parse (env : Env) (f : Nat) (ps : PassSt)
    (seen rest : List String) (ntp : List (String × CodeGraphNode))
    (cur t : String) (pr : ParseResult)
    (hv : ps.alreadyVisited.contains cur = false)
    (hd : env.docs cur = some t)
    (hfa : fileAlreadyIndexed (ps.st.graph.getFileFromSymbolTable (env.relPath cur))
      (env.relPath cur) (env.sha256 t) ps.fileHashMap = false)
    (hp : env.createNodesFromDocument cur t = some pr)
    (hn : pr.nodes ≠ [])
    (hl : ∀ n, n ∈ pr.nodes → n.location.uri = cur) :
    ∃ ids2 ntp2,
      frontierLoop env (f + 1) ps seen (cur :: rest) ntp =
        frontierLoop env f (afterParseStep env ps cur (env.sha256 t) ids2 pr)
          seen rest ntp2 ∧
      (ntp2 = [] → ntp = [] ∧ pr.nodes = []) := by
  obtain ⟨ids2, ntp2, hnl, hne⟩ := processParsedNodes_local env cur pr.nodes
    { ps with
      alreadyVisited := ps.alreadyVisited ++ [cur],
      tr := (ps.tr ++ [Ev.readDoc cur]) ++ [Ev.fileProcessing (env.relPath cur)]
        ++ [Ev.readDoc cur, Ev.parseCall cur] }
    seen rest [] ntp hl
  refine ⟨ids2, ntp2, ?_, fun h => hne h⟩
  simp only [frontierLoop]
  rw [if_neg (by rw [hv]; simp)]
  rw [getFileFromSymbolTable_some env _ cur t hd]
  dsimp only
  rw [hfa, if_neg (by simp)]
  rw [hd]
  dsimp only
  rw [hp]
  simp only [Option.getD_some]
  rw [if_neg (by simp [hn])]
  rw [hnl]
  rfl

/-- The shape of a pass over a single readable, stale document all of whose
parsed nodes live in that document: the pass completes with the syncing flag
reset, and the graph records the file's entry with the fresh digest and
wholesale-replaced edges; workspace and filter state are untouched. -/
theorem singleLocalPass_shape (env : Env) (fuel : Nat) (st0 : IndexerSt)
    (u t : String) (pr : ParseResult)
    (hws : ¬ st0.workspace = "") (hd : env.docs u = some t)
    (hp : env.createNodesFromDocument u t = some pr) (hn : pr.nodes ≠ [])
    (hl : ∀ n, n ∈ pr.nodes → n.location.uri = u)
    (hstale : ∀ e, st0.graph.getFileFromSymbolTable (env.relPath u) = some e →
      e.sha ≠ env.sha256 t) :
    ∃ ids2,
      (processDocuments env (fuel + 1) st0 [u] false).out = PassOutcome.completed ∧
      (processDocuments env (fuel + 1) st0 [u] false).st.workspace = st0.workspace ∧
      (processDocuments env (fuel + 1) st0 [u] false).st.syncing = false ∧
      (processDocuments env (fuel + 1) st0 [u] false).st.graph =
        graphAfter env st0.graph u (env.sha256 t) ids2 pr := by
  obtain ⟨ids2, ntp2, hstep, hne⟩ := frontierStep_parse env fuel
    ⟨{ st0 with syncing := true }, [], [], []⟩ [u] [] [] u t pr rfl hd
    (fileAlreadyIndexed_false _ _ _ _ (fun e he => hstale e he) (by simp [lookupA])) hp hn hl
  have hntp : ntp2 ≠ [] := fun h => hn (hne h).2
  have hdone : frontierLoop env (fuel + 1) ⟨{ st0 with syncing := true }, [], [], []⟩
      [u] [u] [] = FrontierRes.done
        (afterParseStep env ⟨{ st0 with syncing := true }, [], [], []⟩ u
          (env.sha256 t) ids2 pr) ntp2 := by
    rw [hstep, frontierLoop_nil]
  have hone : ∃ X, processOneDoc env (fuel + 1) false
      ⟨{ st0 with syncing := true }, [], [], []⟩ u = DocRes.next X ∧
      X.st.workspace = st0.workspace ∧ X.st.syncing = true ∧
      X.st.graph = graphAfter env st0.graph u (env.sha256 t) ids2 pr := by
    unfold processOneDoc
    rw [if_neg (by simp), hd]
    dsimp only
    rw [hdone]
    dsimp only
    rw [if_neg (by simp [hntp])]
    split
    · exact ⟨_, rfl, rfl, rfl, rfl⟩
    · split
      · exact ⟨_, rfl, rfl, rfl, rfl⟩
      · exact ⟨_, rfl, rfl, rfl, rfl⟩
  obtain ⟨X, hX, hw, hs, hg⟩ := hone
  refine ⟨ids2, ?_⟩
  unfold processDocuments
  rw [if_neg (by simp [hws])]
  simp only [docLoop]
  rw [hX]
  simp only [docLoop]
  exact ⟨trivial, hw, trivial, hg⟩

/-- One frontier step over a document whose symbol-table entry is current
(stored digest or this-pass digest matches): the step only reads the
document and marks it visited — no progress callback, no parse, no graph or
store mutation — and the loop continues with the rest of the queue. -/
theorem frontierStep_skip (env : Env) (f : Nat) (ps : PassSt)
    (seen rest : List String) (ntp : List (String × CodeGraphNode))
    (cur t : String) (e : FileEntry)
    (hv : ps.alreadyVisited.contains cur = false)
    (hd : env.docs cur = some t)
    (he : ps.st.graph.getFileFromSymbolTable (env.relPath cur) = some e)
    (hsha : e.sha = env.sha256 t ∨
      lookupA ps.fileHashMap (env.relPath cur) = some (env.sha256 t)) :
    frontierLoop env (f + 1) ps seen (cur :: rest) ntp =
      frontierLoop env f
        { ps with
          alreadyVisited := ps.alreadyVisited ++ [cur],
          tr := ps.tr ++ [Ev.readDoc cur] } seen rest ntp := by
  simp only [frontierLoop]
  rw [if_neg (by rw [hv]; simp)]
  rw [getFileFromSymbolTable_some env _ cur t hd]
  dsimp only
  rw [he, fileAlreadyIndexed_true e _ _ _ hsha, if_pos rfl]

theorem IndexerSt_set_syncing (x : IndexerSt) (h : x.syncing = false) :
    ({ ({ x with syncing := true } : IndexerSt) with syncing := false } : IndexerSt) = x := by
  obtain ⟨a, b, c, d, e, f, g⟩ := x
  simp only [IndexerSt.syncing] at h
  rw [h]

/-- A pass over a single readable document whose stored digest matches its
current content: the document is read (for digesting) but never reparsed,
and the Indexer state is returned unchanged. -/
theorem singleCurrentPass (env : Env) (fuel : Nat) (st1 : IndexerSt)
    (u t : String) (e : FileEntry)
    (hws : ¬ st1.workspace = "") (hsync : st1.syncing = false)
    (hd : env.docs u = some t)
    (he : st1.graph.getFileFromSymbolTable (env.relPath u) = some e)
    (hsha : e.sha = env.sha256 t) :
    processDocuments env (fuel + 1) st1 [u] false =
      ⟨st1, [Ev.readDoc u], PassOutcome.completed⟩ := by
  obtain ⟨ws, filt, sy, mc, g, sv, sd⟩ := st1
  simp only [IndexerSt.syncing] at hsync
  subst hsync
  unfold processDocuments
  rw [if_neg (by simpa using hws)]
  simp only [docLoop]
  unfold processOneDoc
  rw [if_neg (by simp), hd]
  dsimp only
  rw [frontierStep_skip env fuel ⟨⟨ws, filt, true, mc, g, sv, sd⟩, [], [], []⟩
    [u] [] [] u t e rfl hd he (Or.inl hsha)]
  rw [frontierLoop_nil]
  rfl

theorem processParsedNodes_skipB (env : Env) (A B bTxt : String) (hAB : B ≠ A)
    (hdB : env.docs B = some bTxt) :
    ∀ (nodes : List CodeGraphNode) (ps : PassSt) (seen queue ids : List String)
      (ntp : List (String × CodeGraphNode)),
    (∀ n, n ∈ nodes → n.location.uri = A ∨ n.location.uri = B) →
    cacheReady env ps.st →
    (fileAlreadyIndexed (ps.st.graph.getFileFromSymbolTable (env.relPath B))
        (env.relPath B) (env.sha256 bTxt) ps.fileHashMap = true ∨
      seen.contains B = true) →
    ∃ ps' ids' ntp' d,
      processParsedNodes env A nodes ps seen queue ids ntp =
        NodeLoopRes.ok ps' seen queue ids' ntp' ∧
      ps'.st.graph = ps.st.graph ∧ ps'.fileHashMap = ps.fileHashMap ∧
      ps'.alreadyVisited = ps.alreadyVisited ∧
      cacheReady env ps'.st ∧ ps'.st.inclusionFilter = ps.st.inclusionFilter ∧
      ps'.tr = ps.tr ++ d ∧ (∀ x, Ev.parseCall x ∉ d) := by
  intro nodes
  induction nodes with
  | nil =>
    intro ps seen queue ids ntp _ hready _
    exact ⟨ps, ids, ntp, [], by simp [processParsedNodes], rfl, rfl, rfl, hready,
      rfl, by simp, by simp⟩
  | cons node rest ih =>
    intro ps seen queue ids ntp hcur hready hsk
    rcases hcur node (List.mem_cons_self node rest) with hA | hB
    · simp only [processParsedNodes]
      rw [if_neg (not_not_intro hA)]
      exact ih ps seen queue _ _ (fun n hn => hcur n (List.mem_cons_of_mem node hn))
        hready hsk
    · simp only [processParsedNodes]
      rw [if_pos (by rw [hB]; exact hAB), hB]
      rw [getFileFromSymbolTable_some env ps.st.graph B bTxt hdB]
      dsimp only
      rw [shouldIncludeFile_eq env ps.st (env.relPath B) hready]
      dsimp only
      have hrest : ∀ n, n ∈ rest → n.location.uri = A ∨ n.location.uri = B :=
        fun n hn => hcur n (List.mem_cons_of_mem node hn)
      have step : ∀ h2 : NodeLoopRes, processParsedNodes env A rest
            ⟨flipCache env ps.st, ps.tr ++ [Ev.readDoc B], ps.fileHashMap,
              ps.alreadyVisited⟩ seen queue ids ntp = h2 →
          ∃ ps' ids' ntp' d, h2 = NodeLoopRes.ok ps' seen queue ids' ntp' ∧
            ps'.st.graph = ps.st.graph ∧ ps'.fileHashMap = ps.fileHashMap ∧
            ps'.alreadyVisited = ps.alreadyVisited ∧
            cacheReady env ps'.st ∧ ps'.st.inclusionFilter = ps.st.inclusionFilter ∧
            ps'.tr = ps.tr ++ d ∧ (∀ x, Ev.parseCall x ∉ d) := by
        intro h2 hh2
        obtain ⟨ps', ids', ntp', d, heq, hg, hf, ha, hr, hfil, htr, hnp⟩ :=
          ih ⟨flipCache env ps.st, ps.tr ++ [Ev.readDoc B], ps.fileHashMap,
              ps.alreadyVisited⟩ seen queue ids ntp hrest (Or.inr rfl) hsk
        rw [hh2] at heq
        refine ⟨ps', ids', ntp', [Ev.readDoc B] ++ d, heq, hg, hf, ha, hr, hfil, ?_, ?_⟩
        · rw [htr]
          simp
        · intro x hx
          rcases List.mem_append.mp hx with h | h
          · simp at h
          · exact hnp x h
      by_cases hincl : (env.globMatch ps.st.inclusionFilter).contains (env.relPath B) = true
      · rw [if_neg (by rw [hincl]; simp)]
        rcases hsk with hfa | hs
        · rw [if_pos hfa]
          exact step _ rfl
        · by_cases hfa2 : fileAlreadyIndexed
              (ps.st.graph.getFileFromSymbolTable (env.relPath B))
              (env.relPath B) (env.sha256 bTxt) ps.fileHashMap = true
          · rw [if_pos hfa2]
            exact step _ rfl
          · rw [if_neg hfa2, if_pos hs]
            exact step _ rfl
      · rw [if_pos (by simpa using hincl)]
        exact step _ rfl

theorem processParsedNodes_addsB (env : Env) (A B bTxt : String) (hAB : B ≠ A)
    (hdB : env.docs B = some bTxt) :
    ∀ (nodes : List CodeGraphNode) (ps : PassSt) (seen queue ids : List String)
      (ntp : List (String × CodeGraphNode)),
    (∀ n, n ∈ nodes → n.location.uri = A ∨ n.location.uri = B) →
    (∃ n, n ∈ nodes ∧ n.location.uri = B) →
    cacheReady env ps.st →
    (env.globMatch ps.st.inclusionFilter).contains (env.relPath B) = true →
    fileAlreadyIndexed (ps.st.graph.getFileFromSymbolTable (env.relPath B))
      (env.relPath B) (env.sha256 bTxt) ps.fileHashMap = false →
    seen.contains B = false →
    ∃ ps' ids' ntp',
      processParsedNodes env A nodes ps seen queue ids ntp =
        NodeLoopRes.ok ps' (seen ++ [B]) (queue ++ [B]) ids' ntp' ∧
      ps'.st.graph = ps.st.graph ∧ ps'.fileHashMap = ps.fileHashMap ∧
      ps'.alreadyVisited = ps.alreadyVisited := by
  intro nodes
  induction nodes with
  | nil =>
    intro ps seen queue ids ntp _ hBex _ _ _ _
    obtain ⟨n, hn, _⟩ := hBex
    cases hn
  | cons node rest ih =>
    intro ps seen queue ids ntp hcur hBex hready hglob hfa hseen
    rcases hcur node (List.mem_cons_self node rest) with hA | hB
    · have hBex2 : ∃ n, n ∈ rest ∧ n.location.uri = B := by
        obtain ⟨n, hn, hub⟩ := hBex
        rcases List.mem_cons.mp hn with rfl | hmem
        · exact absurd (hub.symm.trans hA) hAB
        · exact ⟨n, hmem, hub⟩
      simp only [processParsedNodes]
      rw [if_neg (not_not_intro hA)]
      exact ih ps seen queue _ _ (fun n hn => hcur n (List.mem_cons_of_mem node hn))
        hBex2 hready hglob hfa hseen
    · simp only [processParsedNodes]
      rw [if_pos (by rw [hB]; exact hAB), hB]
      rw [getFileFromSymbolTable_some env ps.st.graph B bTxt hdB]
      dsimp only
      rw [shouldIncludeFile_eq env ps.st (env.relPath B) hready]
      dsimp only
      rw [if_neg (by rw [hglob]; simp)]
      rw [hfa, if_neg (by simp), hseen, if_neg (by simp)]
      obtain ⟨ps', ids', ntp', d, heq, hg, hf, ha, _, _, _, _⟩ :=
        processParsedNodes_skipB env A B bTxt hAB hdB rest
          ⟨flipCache env ps.st, ps.tr ++ [Ev.readDoc B], ps.fileHashMap,
            ps.alreadyVisited⟩ (seen ++ [B]) (queue ++ [B]) ids ntp
          (fun n hn => hcur n (List.mem_cons_of_mem node hn)) (Or.inr rfl)
          (Or.inr (by simp))
      exact ⟨ps', ids', ntp', heq, hg, hf, ha⟩

theorem frontierC3_stale (env : Env) (f : Nat) (ps : PassSt)
    (A B aTxt bTxt : String) (prA : ParseResult)
    (hdA : env.docs A = some aTxt) (hdB : env.docs B = some bTxt)
    (hAB : B ≠ A) (hrel : env.relPath B ≠ env.relPath A)
    (hpA : env.createNodesFromDocument A aTxt = some prA)
    (hnA : prA.nodes ≠ [])
    (hcur : ∀ n, n ∈ prA.nodes → n.location.uri = A ∨ n.location.uri = B)
    (hBex : ∃ n, n ∈ prA.nodes ∧ n.location.uri = B)
    (hready : cacheReady env ps.st)
    (hglob : (env.globMatch ps.st.inclusionFilter).contains (env.relPath B) = true)
    (havA : ps.alreadyVisited.contains A = false)
    (havB : ps.alreadyVisited.contains B = false)
    (hfaA : fileAlreadyIndexed (ps.st.graph.getFileFromSymbolTable (env.relPath A))
      (env.relPath A) (env.sha256 aTxt) ps.fileHashMap = false)
    (hfhB : lookupA ps.fileHashMap (env.relPath B) = none)
    (hstaleB : ∀ e, ps.st.graph.getFileFromSymbolTable (env.relPath B) = some e →
      e.sha ≠ env.sha256 bTxt) :
    Ev.parseCall B ∈
      (frontierLoop env (f + 1 + 1) ps [A] (A :: []) []).passSt.tr := by
  have hfaB : fileAlreadyIndexed (ps.st.graph.getFileFromSymbolTable (env.relPath B))
      (env.relPath B) (env.sha256 bTxt) ps.fileHashMap = false :=
    fileAlreadyIndexed_false _ _ _ _ hstaleB (by rw [hfhB]; simp)
  obtain ⟨ps', ids', ntp', hnl, hg, hf, ha⟩ :=
    processParsedNodes_addsB env A B bTxt hAB hdB prA.nodes
      { ps with
        alreadyVisited := ps.alreadyVisited ++ [A],
        tr := (ps.tr ++ [Ev.readDoc A]) ++ [Ev.fileProcessing (env.relPath A)]
          ++ [Ev.readDoc A, Ev.parseCall A] }
      [A] [] [] [] hcur hBex hready hglob hfaB (by simp [hAB])
  have hg' : ps'.st.graph = ps.st.graph := hg
  have hf' : ps'.fileHashMap = ps.fileHashMap := hf
  have ha' : ps'.alreadyVisited = ps.alreadyVisited ++ [A] := ha
  simp only [frontierLoop]
  rw [if_neg (by rw [havA]; simp)]
  rw [getFileFromSymbolTable_some env _ A aTxt hdA]
  dsimp only
  rw [hfaA, if_neg (by simp)]
  rw [hdA]
  dsimp only
  rw [hpA]
  simp only [Option.getD_some]
  rw [if_neg (by simp [hnA])]
  rw [hnl]
  dsimp only
  simp only [List.nil_append]
  -- second frontier step, on B
  simp only [frontierLoop]
  rw [if_neg (by rw [ha']; simp [hAB]; simpa using havB)]
  rw [getFileFromSymbolTable_some env _ B bTxt hdB]
  dsimp only
  rw [getFile_update_ne ps'.st.graph (env.relPath A) (env.relPath B)
    ⟨ids', env.sha256 aTxt⟩ prA.importEdges prA.exportEdges hrel]
  rw [hg']
  rw [show fileAlreadyIndexed (ps.st.graph.getFileFromSymbolTable (env.relPath B))
      (env.relPath B) (env.sha256 bTxt)
      (setA ps'.fileHashMap (env.relPath A) (env.sha256 aTxt)) = false from
    fileAlreadyIndexed_false _ _ _ _ hstaleB
      (by rw [hf', lookupA_setA_ne ps.fileHashMap _ _ _ hrel, hfhB]; simp)]
  rw [if_neg (by simp)]
  rw [hdB]
  dsimp only
  split
  · simp [FrontierRes.passSt]
  · rcases hnl2 : processParsedNodes env B
        ((env.createNodesFromDocument B bTxt).getD ⟨[], [], []⟩).nodes _ _ _ [] _
        with ⟨ps4, seen4, queue4, ids4, ntp4⟩ | ⟨ps4⟩
    · obtain ⟨d4, hd4, _⟩ := frontierLoop_tr_ext env (fun _ => True)
        (fun _ => trivial) (fun _ => trivial) (fun _ => trivial) f
        { ps4 with
          fileHashMap := setA ps4.fileHashMap (env.relPath B) (env.sha256 bTxt),
          st :=
            { ps4.st with
              graph :=
                ps4.st.graph.updateFileWithEdges (env.relPath B)
                  (FileEntry.mk ids4 (env.sha256 bTxt))
                  (((env.createNodesFromDocument B bTxt).getD (ParseResult.mk [] [] [])).importEdges)
                  (((env.createNodesFromDocument B bTxt).getD (ParseResult.mk [] [] [])).exportEdges) } }
        seen4 queue4 ntp4
      obtain ⟨d5, hd5, _⟩ := processParsedNodes_tr_ext env B (fun _ => True)
        (fun _ => trivial)
        ((env.createNodesFromDocument B bTxt).getD ⟨[], [], []⟩).nodes _ _ _ [] _
      rw [hnl2] at hd5
      simp only [NodeLoopRes.passSt] at hd5
      rw [hd4]
      dsimp only
      rw [hd5]
      simp
    · obtain ⟨d5, hd5, _⟩ := processParsedNodes_tr_ext env B (fun _ => True)
        (fun _ => trivial)
        ((env.createNodesFromDocument B bTxt).getD ⟨[], [], []⟩).nodes _ _ _ [] _
      rw [hnl2] at hd5
      simp only [NodeLoopRes.passSt] at hd5
      simp only [FrontierRes.passSt]
      rw [hd5]
      simp

theorem frontierC3_current (env : Env) (f : Nat) (ps : PassSt)
    (A B aTxt bTxt : String) (prA : ParseResult)
    (hdA : env.docs A = some aTxt) (hdB : env.docs B = some bTxt)
    (hAB : B ≠ A)
    (hpA : env.createNodesFromDocument A aTxt = some prA)
    (hnA : prA.nodes ≠ [])
    (hcur : ∀ n, n ∈ prA.nodes → n.location.uri = A ∨ n.location.uri = B)
    (hready : cacheReady env ps.st)
    (havA : ps.alreadyVisited.contains A = false)
    (hfaA : fileAlreadyIndexed (ps.st.graph.getFileFromSymbolTable (env.relPath A))
      (env.relPath A) (env.sha256 aTxt) ps.fileHashMap = false)
    (hfaB : fileAlreadyIndexed (ps.st.graph.getFileFromSymbolTable (env.relPath B))
      (env.relPath B) (env.sha256 bTxt) ps.fileHashMap = true) :
    ∃ ps1 ntp d,
      frontierLoop env (f + 1) ps [A] (A :: []) [] = FrontierRes.done ps1 ntp ∧
      ps1.tr = ps.tr ++ d ∧ ∀ x, Ev.parseCall x ∈ d → x = A := by
  obtain ⟨ps', ids', ntp', d, hnl, hg, hf, ha, hr, hfil, htr, hnp⟩ :=
    processParsedNodes_skipB env A B bTxt hAB hdB prA.nodes
      { ps with
        alreadyVisited := ps.alreadyVisited ++ [A],
        tr := (ps.tr ++ [Ev.readDoc A]) ++ [Ev.fileProcessing (env.relPath A)]
          ++ [Ev.readDoc A, Ev.parseCall A] }
      [A] [] [] [] hcur hready (Or.inl hfaB)
  simp only [frontierLoop]
  rw [if_neg (by rw [havA]; simp)]
  rw [getFileFromSymbolTable_some env _ A aTxt hdA]
  dsimp only
  rw [hfaA, if_neg (by simp)]
  rw [hdA]
  dsimp only
  rw [hpA]
  simp only [Option.getD_some]
  rw [if_neg (by simp [hnA])]
  rw [hnl]
  dsimp only
  rw [frontierLoop_nil]
  refine ⟨_, _, [Ev.readDoc A] ++ [Ev.fileProcessing (env.relPath A)]
    ++ [Ev.readDoc A, Ev.parseCall A] ++ d, rfl, ?_, ?_⟩
  · dsimp only
    rw [htr]
    simp
  · intro x hx
    simp only [List.mem_append, List.mem_singleton, List.mem_cons,
      List.not_mem_nil, or_false, reduceCtorEq, false_or, Ev.parseCall.injEq] at hx
    rcases hx with rfl | h
    · rfl
    · exact absurd h (hnp x)

theorem processOneDoc_mem (env : Env) (fuel : Nat) (fb : Bool) (ps : PassSt)
    (u t : String) (x : Ev)
    (hd : env.docs u = some t)
    (hv : ps.alreadyVisited.contains u = false)
    (hx : x ∈ (frontierLoop env fuel ps [u] [u] []).passSt.tr) :
    x ∈ (processOneDoc env fuel fb ps u).passSt.tr := by
  unfold processOneDoc
  rw [if_neg (by rw [hv]; simp)]
  rw [hd]
  dsimp only
  rcases hfr : frontierLoop env fuel ps [u] [u] [] with ⟨ps1, ntp⟩ | ⟨ps1⟩ | ⟨ps1⟩ | ⟨ps1⟩ <;>
    rw [hfr] at hx <;>
    simp only [FrontierRes.passSt] at hx <;>
    dsimp only
  · split
    · simpa [DocRes.passSt] using hx
    · split
      · simp only [DocRes.passSt]
        exact List.mem_append_left _ hx
      · split
        · simp only [DocRes.passSt]
          exact List.mem_append_left _ (List.mem_append_left _ hx)
        · simp only [DocRes.passSt]
          exact List.mem_append_left _ (List.mem_append_left _ hx)
  · exact hx
  · exact hx
  · exact hx

theorem docLoop_singleton_mem (env : Env) (fuel : Nat) (fb : Bool) (u : String)
    (ps : PassSt) (x : Ev)
    (hx : x ∈ (processOneDoc env fuel fb ps u).passSt.tr) :
    x ∈ (docLoop env fuel fb [u] ps).tr := by
  simp only [docLoop]
  rcases h : processOneDoc env fuel fb ps u with ⟨ps1⟩ | ⟨ps1⟩ | ⟨ps1⟩ <;>
    rw [h] at hx <;>
    simp only [DocRes.passSt] at hx <;>
    simp only [docLoop] <;>
    exact hx

theorem passC3_current (env : Env) (f : Nat) (st0 : IndexerSt)
    (A B aTxt bTxt : String) (prA : ParseResult)
    (hws : ¬ st0.workspace = "")
    (hdA : env.docs A = some aTxt) (hdB : env.docs B = some bTxt)
    (hAB : B ≠ A)
    (hpA : env.createNodesFromDocument A aTxt = some prA)
    (hnA : prA.nodes ≠ [])
    (hcur : ∀ n, n ∈ prA.nodes → n.location.uri = A ∨ n.location.uri = B)
    (hready : cacheReady env st0)
    (hfaA : fileAlreadyIndexed (st0.graph.getFileFromSymbolTable (env.relPath A))
      (env.relPath A) (env.sha256 aTxt) [] = false)
    (hfaB : fileAlreadyIndexed (st0.graph.getFileFromSymbolTable (env.relPath B))
      (env.relPath B) (env.sha256 bTxt) [] = true) :
    Ev.parseCall B ∉ (processDocuments env (f + 1) st0 [A] false).tr := by
  obtain ⟨ps1, ntp, d, hfr, htr, hpc⟩ := frontierC3_current env f
    ⟨{ st0 with syncing := true }, [], [], []⟩ A B aTxt bTxt prA hdA hdB hAB hpA hnA
    hcur hready rfl hfaA hfaB
  have hcontra : Ev.parseCall B ∉ ps1.tr := by
    rw [htr]
    intro h
    rcases List.mem_append.mp h with h | h
    · simp at h
    · exact hAB (hpc B h)
  have hsk : ∀ e, e ∈ (skeletonizeCodeNodes env ps1.st.graph (f + 1)
      (ntp.map (fun kv => kv.2))).tr → e ≠ Ev.parseCall B :=
    skeletonizeCodeNodes_tr_pred env ps1.st.graph (f + 1) (ntp.map (fun kv => kv.2))
      (fun e => e ≠ Ev.parseCall B) (by intro u; simp) (by intro n c; simp)
  intro hmem
  unfold processDocuments at hmem
  rw [if_neg (by simp [hws])] at hmem
  simp only [docLoop] at hmem
  unfold processOneDoc at hmem
  rw [if_neg (by simp)] at hmem
  rw [hdA] at hmem
  dsimp only at hmem
  rw [hfr] at hmem
  dsimp only at hmem
  by_cases he1 : ntp.isEmpty = true
  · rw [if_pos he1] at hmem
    dsimp only at hmem
    exact hcontra hmem
  · rw [if_neg he1] at hmem
    by_cases he2 : (skeletonizeCodeNodes env ps1.st.graph (f + 1)
        (List.map (fun kv => kv.2) ntp)).skels.isEmpty = true
    · rw [if_pos he2] at hmem
      dsimp only at hmem
      rcases List.mem_append.mp hmem with h | h
      · exact hcontra h
      · exact hsk _ h rfl
    · rw [if_neg he2] at hmem
      by_cases he3 : env.saveOk = true
      · rw [if_pos he3] at hmem
        dsimp only at hmem
        rcases List.mem_append.mp hmem with h | h
        · rcases List.mem_append.mp h with h1 | h1
          · exact hcontra h1
          · exact hsk _ h1 rfl
        · simp at h
      · rw [if_neg he3] at hmem
        dsimp only at hmem
        rcases List.mem_append.mp hmem with h | h
        · rcases List.mem_append.mp h with h1 | h1
          · exact hcontra h1
          · exact hsk _ h1 rfl
        · simp at h

theorem processedInvocation (env : Env) (g : CodeGraph) (F : Nat)
    (nodes : List CodeGraphNode) :
    ∀ (p : CodeGraphNode) (k : Nat), Processed nodes F p k →
    ∃ acc sufS sufT,
      cacheCons env acc ∧
      (skeletonizeCodeNodes env g F nodes).skels =
        (processNode env g nodes k p acc).skels ++ sufS ∧
      (skeletonizeCodeNodes env g F nodes).tr =
        (processNode env g nodes k p acc).tr ++ sufT := by
  intro p k hp
  induction hp with
  | root q hq hqr =>
    have hmem : q ∈ nodes.filter (fun m => !truthy m.parentNodeId) :=
      List.mem_filter.mpr ⟨hq, by simp [hqr]⟩
    obtain ⟨l1, l2, hsplit⟩ := List.append_of_mem hmem
    have hunf : skeletonizeCodeNodes env g F nodes =
        (nodes.filter (fun m => !truthy m.parentNodeId)).foldl
          (fun a r => processNode env g nodes F r a) ⟨[], [], []⟩ := rfl
    have hinit : cacheCons env (⟨[], [], []⟩ : SkelAcc) := by
      intro u tu htu
      cases htu
    obtain ⟨_, _, hc0⟩ := processNodeFold_acc env g nodes (fun _ => True)
      (fun _ => trivial) (fun _ _ => trivial) F l1 ⟨[], [], []⟩
    obtain ⟨⟨e2, he2⟩, ⟨d2, hd2, _⟩, _⟩ := processNodeFold_acc env g nodes (fun _ => True)
      (fun _ => trivial) (fun _ _ => trivial) F l2
      (processNode env g nodes F q
        (l1.foldl (fun a r => processNode env g nodes F r a) ⟨[], [], []⟩))
    refine ⟨l1.foldl (fun a r => processNode env g nodes F r a) ⟨[], [], []⟩,
      e2, d2, hc0 hinit, ?_, ?_⟩
    · rw [hunf, hsplit, List.foldl_append, List.foldl_cons, he2]
    · rw [hunf, hsplit, List.foldl_append, List.foldl_cons, hd2]
  | child a c k2 ha hc ih =>
    obtain ⟨acc, sufS, sufT, hcc, hS, hT⟩ := ih
    obtain ⟨m1, m2, hsplit⟩ := List.append_of_mem hc
    obtain ⟨_, _, hcm⟩ := processNodeFold_acc env g nodes (fun _ => True)
      (fun _ => trivial) (fun _ _ => trivial) k2 m1 acc
    obtain ⟨⟨e2, he2⟩, ⟨d2, hd2, _⟩, _⟩ := processNodeFold_acc env g nodes (fun _ => True)
      (fun _ => trivial) (fun _ _ => trivial) k2 m2
      (processNode env g nodes k2 c
        (m1.foldl (fun ac r => processNode env g nodes k2 r ac) acc))
    obtain ⟨hsk, _, d3, hd3, _⟩ := skeletonizeNode_acc env g a (childrenOf nodes a.id)
      ((childrenOf nodes a.id).foldl (fun ac r => processNode env g nodes k2 r ac) acc)
      (fun _ => True) (fun _ => trivial) (fun _ _ => trivial)
    have hfold : (childrenOf nodes a.id).foldl
          (fun ac r => processNode env g nodes k2 r ac) acc
        = m2.foldl (fun ac r => processNode env g nodes k2 r ac)
            (processNode env g nodes k2 c
              (m1.foldl (fun ac r => processNode env g nodes k2 r ac) acc)) := by
      rw [hsplit, List.foldl_append, List.foldl_cons]
    have hunf : processNode env g nodes (k2 + 1) a acc =
        (match skeletonizeNode env g a (childrenOf nodes a.id)
          ((childrenOf nodes a.id).foldl (fun ac r => processNode env g nodes k2 r ac) acc) with
        | (acc2, some sk) => { acc2 with skels := acc2.skels ++ [sk] }
        | (acc2, none) => acc2) := rfl
    rcases hres : skeletonizeNode env g a (childrenOf nodes a.id)
        ((childrenOf nodes a.id).foldl (fun ac r => processNode env g nodes k2 r ac) acc)
        with ⟨acc2, osk⟩
    rw [hres] at hsk hd3 hunf
    simp only at hsk hd3
    cases osk with
    | none =>
      refine ⟨m1.foldl (fun ac r => processNode env g nodes k2 r ac) acc,
        e2 ++ sufS, (d2 ++ d3) ++ sufT, hcm hcc, ?_, ?_⟩
      · rw [hS, hunf]
        dsimp only
        rw [hsk, hfold, he2, List.append_assoc]
      · rw [hT, hunf]
        dsimp only
        rw [hd3, hfold, hd2]
        simp [List.append_assoc]
    | some sk =>
      refine ⟨m1.foldl (fun ac r => processNode env g nodes k2 r ac) acc,
        (e2 ++ [sk]) ++ sufS, (d2 ++ d3) ++ sufT, hcm hcc, ?_, ?_⟩
      · rw [hS, hunf]
        dsimp only
        rw [hsk, hfold, he2]
        simp [List.append_assoc]
      · rw [hT, hunf]
        dsimp only
        rw [hd3, hfold, hd2]
        simp [List.append_assoc]

/-! Claim results. -/

/-- C1: the claim states that a zero-node parse aborts only that document's
processing, the remaining frontier documents and batch identifiers are still
processed, and the pass completes normally.  The code instead executes a
bare return from `processDocuments`: on the batch [a.ts, b.ts] where a.ts
parses to zero nodes, b.ts — though readable and stale — is never touched
(no progress callback, no parse), the call settles by the early return
inside the loop, and the syncing flag is left true.  This contradicts the
per-identifier catch that exists precisely for batch isolation and the
syncing-flag protocol reset on every other exit path. -/
theorem C1_zero_node_parse_aborts_batch :
    (processDocuments envZero 5 stInit [uriA, uriB] false).out = PassOutcome.earlyReturn ∧
    (processDocuments envZero 5 stInit [uriA, uriB] false).st.syncing = true ∧
    Ev.parseCall uriB ∉ (processDocuments envZero 5 stInit [uriA, uriB] false).tr ∧
    Ev.fileProcessing "b.ts" ∉ (processDocuments envZero 5 stInit [uriA, uriB] false).tr := by
  decide

/-- C2: the claim states that isSyncing() is false after the call settles on
every path, including a zero-node parse.  On a batch whose only document
parses to zero nodes, the bare return skips the trailing reset and the
Indexer is left with the syncing flag permanently true. -/
theorem C2_syncing_left_true_on_zero_node_parse :
    isSyncing (processDocuments envZero 5 stInit [uriA] false).st = true := by
  decide

/-- C5: the claim states that after clearCache the next shouldIncludeFile
call recomputes the matched set from the currently configured pattern.  The
code clears the cached Set in place, leaving it non-null but empty, so the
recompute branch (guarded by the cache being null) never runs again: after
clearing and switching the filter to one that matches path b, the check
still returns false. -/
theorem C5_clearCache_never_recomputes :
    (shouldIncludeFile envGlob
        (setInclusionFilter (clearCache (shouldIncludeFile envGlob stF1 "a").1) "f2")
        "b").2 = false ∧
    (envGlob.globMatch "f2").contains "b" = true ∧
    (shouldIncludeFile envGlob stF1 "a").2 = true := by
  decide

/-- C4: first, when a frontier document's symbol-table entry exists and the
stored digest (or a digest already recorded for that path earlier in this
pass) matches the digest of its current content, the frontier step only
reads the document and marks it visited — createNodesFromDocument is not
invoked, and neither the graph nor the pass digest map changes.  Second,
indexing the same unchanged document twice in sequence: the second pass
performs exactly one read (for digesting), reparses nothing, and returns
the Indexer state of the first pass unchanged — in particular the persisted
store, the edge maps and the symbol table are untouched. -/
theorem C4_digest_short_circuit_idempotent :
    (∀ (env : Env) (f : Nat) (ps : PassSt) (seen rest : List String)
      (ntp : List (String × CodeGraphNode)) (cur t : String) (e : FileEntry),
      ps.alreadyVisited.contains cur = false →
      env.docs cur = some t →
      ps.st.graph.getFileFromSymbolTable (env.relPath cur) = some e →
      (e.sha = env.sha256 t ∨
        lookupA ps.fileHashMap (env.relPath cur) = some (env.sha256 t)) →
      frontierLoop env (f + 1) ps seen (cur :: rest) ntp =
        frontierLoop env f
          { ps with
            alreadyVisited := ps.alreadyVisited ++ [cur],
            tr := ps.tr ++ [Ev.readDoc cur] } seen rest ntp) ∧
    (∀ (env : Env) (fuel : Nat) (st0 : IndexerSt) (u t : String) (pr : ParseResult),
      ¬ st0.workspace = "" →
      env.docs u = some t →
      env.createNodesFromDocument u t = some pr →
      pr.nodes ≠ [] →
      (∀ n, n ∈ pr.nodes → n.location.uri = u) →
      (∀ e, st0.graph.getFileFromSymbolTable (env.relPath u) = some e →
        e.sha ≠ env.sha256 t) →
      processDocuments env (fuel + 1)
          (processDocuments env (fuel + 1) st0 [u] false).st [u] false =
        ⟨(processDocuments env (fuel + 1) st0 [u] false).st,
          [Ev.readDoc u], PassOutcome.completed⟩) := by
  constructor
  · intro env f ps seen rest ntp cur t e hv hd he hsha
    exact frontierStep_skip env f ps seen rest ntp cur t e hv hd he hsha
  · intro env fuel st0 u t pr hws hd hp hn hl hstale
    obtain ⟨ids2, ho, hw, hs, hg⟩ :=
      singleLocalPass_shape env fuel st0 u t pr hws hd hp hn hl hstale
    refine singleCurrentPass env fuel _ u t ⟨ids2, env.sha256 t⟩ ?_ hs hd ?_ rfl
    · rw [hw]
      exact hws
    · rw [hg]
      unfold graphAfter
      exact getFile_update_self st0.graph (env.relPath u) ⟨ids2, env.sha256 t⟩
        pr.importEdges pr.exportEdges

/-- Witness for C4: a concrete current file skipped by a frontier step, and
a concrete unchanged document indexed twice. -/
theorem C4_digest_short_circuit_idempotent_witness :
    (frontierLoop envSaveFail (0 + 1) ⟨stWithA, [], [], []⟩ [uriA] [uriA] [] =
      frontierLoop envSaveFail 0
        { (⟨stWithA, [], [], []⟩ : PassSt) with
          alreadyVisited := ([] : List String) ++ [uriA],
          tr := ([] : List Ev) ++ [Ev.readDoc uriA] } [uriA] [] []) ∧
    (processDocuments envSaveFail (2 + 1)
        (processDocuments envSaveFail (2 + 1) stInit [uriA] false).st [uriA] false =
      ⟨(processDocuments envSaveFail (2 + 1) stInit [uriA] false).st,
        [Ev.readDoc uriA], PassOutcome.completed⟩) :=
  ⟨C4_digest_short_circuit_idempotent.1 envSaveFail 0 ⟨stWithA, [], [], []⟩
      [uriA] [] [] uriA "contentA" ⟨[], "contentA"⟩ (by decide) (by decide)
      (by decide) (Or.inl (by decide)),
   C4_digest_short_circuit_idempotent.2 envSaveFail 2 stInit uriA "contentA"
      ⟨[nodeA], [], []⟩ (by decide) (by decide) (by decide) (by decide)
      (by decide) (by
        intro e he
        simp [stInit, emptyGraph, CodeGraph.getFileFromSymbolTable, lookupA] at he)⟩

/-- C6 counterexample: a node whose parentNodeId names no node in the set is
not treated as a root — it is filed under the missing parent and never
visited, so it contributes no skeleton even though its document is readable
and generation is total. -/
theorem C6_dangling_parent_not_skeletonized :
    (skeletonizeCodeNodes envDocA emptyGraph 5 [mkNode "n1" uriA (some "ghost")]).skels
      = [] ∧
    (envDocA.docs uriA).isSome = true := by
  decide

/-- C6 amended: skeletonizeCodeNodes treats a node as a root only when its
parentNodeId is absent (or empty); every such root whose document is
readable is skeletonized and contributes a skeleton to the result, while a
node whose parentNodeId names no node in the set is filed under the missing
parent and contributes nothing (see the counterexample). -/
theorem C6_amended_roots_contribute (env : Env) (g : CodeGraph) (fuel : Nat)
    (nodes : List CodeGraphNode) (n : CodeGraphNode) (t : String)
    (hf : 1 ≤ fuel) (hn : n ∈ nodes) (hroot : truthy n.parentNodeId = false)
    (hd : env.docs n.location.uri = some t) :
    ∃ sk, sk ∈ (skeletonizeCodeNodes env g fuel nodes).skels ∧
      sk.id = n.id ∧ sk.parentNodeId = n.parentNodeId := by
  have hmem : n ∈ nodes.filter (fun m => !truthy m.parentNodeId) :=
    List.mem_filter.mpr ⟨hn, by simp [hroot]⟩
  obtain ⟨l1, l2, hsplit⟩ := List.append_of_mem hmem
  have hunf : skeletonizeCodeNodes env g fuel nodes =
      (nodes.filter (fun m => !truthy m.parentNodeId)).foldl
        (fun a r => processNode env g nodes fuel r a) ⟨[], [], []⟩ := rfl
  rw [hunf, hsplit, List.foldl_append, List.foldl_cons]
  obtain ⟨_, _, hc0⟩ := processNodeFold_acc env g nodes (fun _ => True)
    (fun _ => trivial) (fun _ _ => trivial) fuel l1 ⟨[], [], []⟩
  have hinit : cacheCons env (⟨[], [], []⟩ : SkelAcc) := by
    intro u tu htu
    cases htu
  obtain ⟨⟨e, sk, hsk, hid, hpar⟩, _⟩ := processNode_own env g nodes fuel hf n
    (l1.foldl (fun a r => processNode env g nodes fuel r a) ⟨[], [], []⟩) t
    (hc0 hinit) hd
  obtain ⟨⟨e2, he2⟩, _, _⟩ := processNodeFold_acc env g nodes (fun _ => True)
    (fun _ => trivial) (fun _ _ => trivial) fuel l2
    (processNode env g nodes fuel n
      (l1.foldl (fun a r => processNode env g nodes fuel r a) ⟨[], [], []⟩))
  refine ⟨sk, ?_, hid, hpar⟩
  rw [he2, hsk]
  simp

/-- Witness for the amended C6 at a concrete root node. -/
theorem C6_amended_roots_contribute_witness :
    ∃ sk, sk ∈ (skeletonizeCodeNodes envDocA emptyGraph 1 [nodeA]).skels ∧
      sk.id = nodeA.id ∧ sk.parentNodeId = nodeA.parentNodeId :=
  C6_amended_roots_contribute envDocA emptyGraph 1 [nodeA] nodeA "contentA"
    (by decide) (by simp) (by decide) (by decide)

/-- C7: for every node P with children that a run of the skeletonizer
processes — a parentNodeId-less root, or, recursively, any child of a
processed node, at any nesting depth — every readable child's skeleton is
appended to the result collection before P's skeleton, and P's code block
is produced by mergeCodeNodeSummariesIntoParent from P's raw range text,
the children's ids and the result collection as it stood when P was
generated (which already contains every child's skeleton). -/
theorem C7_children_before_parent (env : Env) (g : CodeGraph) (F : Nat)
    (nodes : List CodeGraphNode) (p : CodeGraphNode) (k : Nat) (t : String)
    (hk : 2 ≤ k) (hP : Processed nodes F p k)
    (hd : env.docs p.location.uri = some t)
    (hcs : childrenOf nodes p.id ≠ [])
    (hcd : ∀ c, c ∈ childrenOf nodes p.id → ∃ tc, env.docs c.location.uri = some tc) :
    ∃ pre post cb,
      (skeletonizeCodeNodes env g F nodes).skels =
        pre ++ mkSkeleton env g p cb :: post ∧
      cb = env.mergeCodeNodeSummariesIntoParent p.location
        (env.getRange t p.location.range)
        ((childrenOf nodes p.id).map (fun n => n.id)) pre ∧
      (∀ c, c ∈ childrenOf nodes p.id → ∃ s, s ∈ pre ∧ s.id = c.id) ∧
      Ev.genCall p.id cb ∈ (skeletonizeCodeNodes env g F nodes).tr := by
  obtain ⟨acc, sufS, sufT, hcc, hS, hT⟩ := processedInvocation env g F nodes p k hP
  obtain ⟨k1, rfl⟩ : ∃ k1, k = k1 + 1 := ⟨k - 1, by omega⟩
  have hk1 : 1 ≤ k1 := by omega
  obtain ⟨pre, hpreext, hsk, hgen, hchild⟩ := processNode_some env g nodes k1 p acc t hcc hd
  refine ⟨pre, sufS, nodeCodeBlock env p (childrenOf nodes p.id) pre t, ?_, ?_, ?_, ?_⟩
  · rw [hS, hsk]
    simp
  · unfold nodeCodeBlock
    rw [if_neg (by simpa using hcs)]
  · intro c hcm
    obtain ⟨s, hs, hid, _⟩ := hchild c hcm hk1 (hcd c hcm)
    exact ⟨s, hs, hid⟩
  · rw [hT]
    exact List.mem_append_left _ hgen

/-- Witness for C7 at a concrete nested parent: p2 is itself a child of the
root r and has the child c2. -/
theorem C7_children_before_parent_witness :
    ∃ pre post cb,
      (skeletonizeCodeNodes envDocA emptyGraph 3 [nodeR, nodeP2, nodeC2]).skels =
        pre ++ mkSkeleton envDocA emptyGraph nodeP2 cb :: post ∧
      cb = envDocA.mergeCodeNodeSummariesIntoParent nodeP2.location
        (envDocA.getRange "contentA" nodeP2.location.range)
        ((childrenOf [nodeR, nodeP2, nodeC2] nodeP2.id).map (fun n => n.id)) pre ∧
      (∀ c, c ∈ childrenOf [nodeR, nodeP2, nodeC2] nodeP2.id →
        ∃ s, s ∈ pre ∧ s.id = c.id) ∧
      Ev.genCall nodeP2.id cb ∈
        (skeletonizeCodeNodes envDocA emptyGraph 3 [nodeR, nodeP2, nodeC2]).tr :=
  C7_children_before_parent envDocA emptyGraph 3 [nodeR, nodeP2, nodeC2] nodeP2 2 "contentA"
    (by decide)
    (Processed.child nodeR nodeP2 2
      (Processed.root nodeR (by decide) (by decide))
      (by decide))
    (by decide) (by decide)
    (by
      intro c hc
      have hl : childrenOf [nodeR, nodeP2, nodeC2] nodeP2.id = [nodeC2] := by decide
      rw [hl] at hc
      have hc2 : c = nodeC2 := List.mem_singleton.mp hc
      subst hc2
      exact ⟨"contentA", by decide⟩)

/-- C8 counterexample: with a store whose save fails, the pass does not
reject — the failure is caught at the document-loop boundary: the save was
attempted (and not retried), the remaining batch identifier b.ts is still
parsed, nothing is persisted, and the call completes normally. -/
theorem C8_save_failure_absorbed :
    (processDocuments envSaveFail 5 stInit [uriA, uriB] false).out = PassOutcome.completed ∧
    Ev.saveCall ∈ (processDocuments envSaveFail 5 stInit [uriA, uriB] false).tr ∧
    Ev.parseCall uriB ∈ (processDocuments envSaveFail 5 stInit [uriA, uriB] false).tr ∧
    (processDocuments envSaveFail 5 stInit [uriA, uriB] false).st.storeSaves = [] ∧
    (processDocuments envSaveFail 5 stInit [uriA, uriB] false).st.syncing = false := by
  decide

/-- C8 amended: the Indexer never retries a failed save — within one batch
item the save is attempted at most once, as the last store call of that
item's trace — but the failure does not propagate to the caller of
processDocuments: every error, including a store-commit failure, is caught
at the document-loop boundary, so the pass's promise never rejects. -/
theorem C8_amended_save_failure_caught :
    (∀ (env : Env) (fuel : Nat) (st : IndexerSt) (uris : List String) (fb : Bool),
      (processDocuments env fuel st uris fb).out ≠ PassOutcome.rejected) ∧
    (∀ (env : Env) (fuel : Nat) (fb : Bool) (ps : PassSt) (u : String),
      ∃ d, (processOneDoc env fuel fb ps u).passSt.tr = ps.tr ++ d ∧
        (Ev.saveCall ∉ d ∨ ∃ d1, d = d1 ++ [Ev.saveCall] ∧ Ev.saveCall ∉ d1)) := by
  constructor
  · intro env fuel st uris fb
    unfold processDocuments
    split
    · simp
    · exact docLoop_not_rejected env fuel fb uris _
  · intro env fuel fb ps u
    obtain ⟨d, hd, _, hsv⟩ := processOneDoc_tr_shape env fuel fb ps u (fun _ => True)
      (fun _ => trivial) (fun _ => trivial) (fun _ => trivial) (fun _ _ => trivial)
      (fun _ => trivial) (fun _ => trivial) (fun _ => trivial) trivial
    exact ⟨d, hd, hsv⟩

/-- Witness for the amended C8: the concrete failing-save pass does not
reject, and the save of a concrete batch item is its last store call. -/
theorem C8_amended_save_failure_caught_witness :
    (processDocuments envSaveFail 5 stInit [uriA, uriB] false).out ≠ PassOutcome.rejected ∧
    (∃ d, (processOneDoc envSaveFail 5 false
        ⟨{ stInit with syncing := true }, [], [], []⟩ uriA).passSt.tr =
      (⟨{ stInit with syncing := true }, [], [], []⟩ : PassSt).tr ++ d ∧
      (Ev.saveCall ∉ d ∨ ∃ d1, d = d1 ++ [Ev.saveCall] ∧ Ev.saveCall ∉ d1)) :=
  ⟨C8_amended_save_failure_caught.1 envSaveFail 5 stInit [uriA, uriB] false,
   C8_amended_save_failure_caught.2 envSaveFail 5 false
     ⟨{ stInit with syncing := true }, [], [], []⟩ uriA⟩

/-- C9 amended: onFileRemoved is invoked for a file that no longer exists on
disk, but the call is not awaited: no settlement of the callback's promise
is ever part of the pass, for any batch — the core proceeds to the next
identifier without waiting (fire-and-forget, exactly like
onFileProcessing). -/
theorem C9_amended_fire_and_forget :
    (∀ (env : Env) (fuel : Nat) (st : IndexerSt) (uris : List String) (fb : Bool)
      (p : String), Ev.fileRemovedSettled p ∉ (processDocuments env fuel st uris fb).tr) ∧
    (∀ (env : Env) (fuel : Nat) (fb : Bool) (ps : PassSt) (u : String),
      env.docs u = none → ps.alreadyVisited.contains u = false →
      Ev.fileRemovedCall u ∈ (processOneDoc env fuel fb ps u).passSt.tr) := by
  constructor
  · intro env fuel st uris fb p
    unfold processDocuments
    split
    · simp
    · obtain ⟨d, hd, hp⟩ := docLoop_tr_pred env fuel fb
        (fun e => ∀ q, e ≠ Ev.fileRemovedSettled q)
        (fun x q => by simp) (fun x q => by simp) (fun x q => by simp)
        (fun x c q => by simp) (fun x q => by simp) (fun x q => by simp)
        (fun x q => by simp) (fun q => by simp) uris ⟨{ st with syncing := true }, [], [], []⟩
      rw [hd]
      intro hmem
      simp only [List.nil_append] at hmem
      exact hp _ hmem p rfl
  · intro env fuel fb ps u hgu hv
    unfold processOneDoc
    rw [if_neg (by rw [hv]; simp), hgu]
    dsimp only
    split
    · simp [DocRes.passSt]
    · simp [DocRes.passSt]

/-- Witness for the amended C9: a concrete removed file whose callback is
invoked, with no settlement anywhere in the pass. -/
theorem C9_amended_fire_and_forget_witness :
    Ev.fileRemovedSettled uriC ∉ (processDocuments envGone 5 stInit [uriC, uriB] false).tr ∧
    Ev.fileRemovedCall uriC ∈
      (processOneDoc envGone 5 false ⟨{ stInit with syncing := true }, [], [], []⟩
        uriC).passSt.tr :=
  ⟨C9_amended_fire_and_forget.1 envGone 5 stInit [uriC, uriB] false uriC,
   C9_amended_fire_and_forget.2 envGone 5 false
     ⟨{ stInit with syncing := true }, [], [], []⟩ uriC (by decide) (by decide)⟩

/-- C9 counterexample: on the batch [c.ts (deleted), b.ts] the removal
callback is invoked for c.ts and processing proceeds to b.ts, but no
settlement of the callback's promise ever appears in the pass: the call is
not awaited, so deletion ordering is not sequenced before the next
identifier. -/
theorem C9_removed_callback_not_awaited :
    Ev.fileRemovedCall uriC ∈ (processDocuments envGone 5 stInit [uriC, uriB] false).tr ∧
    Ev.readDoc uriB ∈ (processDocuments envGone 5 stInit [uriC, uriB] false).tr ∧
    Ev.fileRemovedSettled uriC ∉ (processDocuments envGone 5 stInit [uriC, uriB] false).tr := by
  decide

/-- C10: an empty batch or an empty workspace string makes processDocuments
return immediately with the syncing flag false, an empty trace (no file
reads, no store calls, no callbacks) and the indexer state otherwise
untouched, in particular the Code Graph and the persisted-store model. -/
theorem C10_empty_input_is_inert (env : Env) (fuel : Nat) (st : IndexerSt)
    (documentUris : List String) (fullBuild : Bool)
    (h : st.workspace = "" ∨ documentUris = []) :
    processDocuments env fuel st documentUris fullBuild =
      ⟨{ st with syncing := false }, [], PassOutcome.completed⟩ := by
  rcases h with h | h <;> simp [processDocuments, h]

/-- Witness instantiating C10 at a concrete empty batch. -/
theorem C10_empty_input_is_inert_witness :
    processDocuments envZero 5 stInit [] false =
      ⟨{ stInit with syncing := false }, [], PassOutcome.completed⟩ :=
  C10_empty_input_is_inert envZero 5 stInit [] false (Or.inr rfl)

/-- C3: blast radius.  For a pass initiated only on A's identifier, where
A's parse surfaces a cross-file node located in B (A imports B), B readable
and matching the inclusion filter, and A itself stale: B is reparsed
(a parser call for B appears in the pass) exactly when B's stored digest is
stale, i.e. iff B's symbol-table entry is not current for B's content. -/
theorem C3_blast_radius (env : Env) (f : Nat) (st0 : IndexerSt)
    (A B aTxt bTxt : String) (prA : ParseResult)
    (hws : ¬ st0.workspace = "")
    (hdA : env.docs A = some aTxt) (hdB : env.docs B = some bTxt)
    (hAB : B ≠ A) (hrel : env.relPath B ≠ env.relPath A)
    (hpA : env.createNodesFromDocument A aTxt = some prA)
    (hnA : prA.nodes ≠ [])
    (hcur : ∀ n, n ∈ prA.nodes → n.location.uri = A ∨ n.location.uri = B)
    (hBex : ∃ n, n ∈ prA.nodes ∧ n.location.uri = B)
    (hready : cacheReady env st0)
    (hglob : (env.globMatch st0.inclusionFilter).contains (env.relPath B) = true)
    (hstaleA : ∀ e, st0.graph.getFileFromSymbolTable (env.relPath A) = some e →
      e.sha ≠ env.sha256 aTxt) :
    Ev.parseCall B ∈ (processDocuments env (f + 1 + 1) st0 [A] false).tr ↔
      ¬ fileCurrent st0.graph (env.relPath B) (env.sha256 bTxt) := by
  constructor
  · intro hmem hc
    obtain ⟨e, he, hsha⟩ := hc
    exact passC3_current env (f + 1) st0 A B aTxt bTxt prA hws hdA hdB hAB hpA hnA hcur
      hready (fileAlreadyIndexed_false _ _ _ _ hstaleA (by simp [lookupA]))
      (by rw [he]; exact fileAlreadyIndexed_true e _ _ _ (Or.inl hsha)) hmem
  · intro hc
    have hstaleB : ∀ e, st0.graph.getFileFromSymbolTable (env.relPath B) = some e →
        e.sha ≠ env.sha256 bTxt := fun e he hsha => hc ⟨e, he, hsha⟩
    have hmem := frontierC3_stale env f ⟨{ st0 with syncing := true }, [], [], []⟩
      A B aTxt bTxt prA hdA hdB hAB hrel hpA hnA hcur hBex hready hglob rfl rfl
      (fileAlreadyIndexed_false _ _ _ _ hstaleA (by simp [lookupA])) rfl hstaleB
    unfold processDocuments
    rw [if_neg (by simp [hws])]
    exact docLoop_singleton_mem env (f + 1 + 1) false A _ _
      (processOneDoc_mem env (f + 1 + 1) false _ A aTxt _ hdA rfl hmem)

/-- Witness instantiating C3 on an empty graph (B stale, hence reparsed). -/
theorem C3_blast_radius_witness :
    Ev.parseCall uriB ∈ (processDocuments envCross 5 stInit [uriA] false).tr ↔
      ¬ fileCurrent stInit.graph (envCross.relPath uriB) (envCross.sha256 "contentB") :=
  C3_blast_radius envCross 3 stInit uriA uriB "contentA" "contentB"
    ⟨[nodeA, nodeB], [], []⟩ (by decide) (by decide) (by decide) (by decide)
    (by decide) (by decide) (by decide) (by decide) (by decide) (Or.inl rfl)
    (by decide)
    (by intro e he; simp [stInit, emptyGraph, CodeGraph.getFileFromSymbolTable, lookupA] at he)

end WingmanIndex
